import Mathlib

/-!
Verification of the n-gram corpus engine of `bot-go`.

This file gives a shallow embedding, in Lean 4, of the core n-gram
machinery of the repository and settles the frozen claims against it.
The embedded functions are translated from the Go source:

* `NGramTrie` and its operations (`Insert`, `GetCount`, `Remove`, `Prune`)
  from `internal/service/ngram` (the trie file, package `ngram`);
* the smoothers `AddKSmoother.Smooth` and `WittenBellSmoother.Smooth`;
* the trie-based model `NGramModelTrie` (second half of
  `internal/service/ngram_persistence.go`) and the map-based model
  `NGramModel`;
* the corpus managers and the persistence codec
  (`SaveCorpusManager` / `LoadCorpusManager`,
  `serializeTrieModel` / `deserializeTrieModel`);
* the service layer (`calculateEntropyWithScores`, the entropy used by
  `AnalyzeCode`).

Modelling conventions (each is noted again at the definition it affects):

* Go `map` values are embedded as association lists; iteration order of a
  Go map is unspecified, so no theorem below depends on the order chosen.
* Go `float64` arithmetic is idealized as exact arithmetic: probabilities
  are `ℚ` (every probability in the source is a quotient of counts) and
  entropies are `ℝ`, with the source's base-2 logarithm (a series
  approximation in `ngram_service.go`) idealized as `Real.logb 2`.
  Division by a zero vocabulary size, which in Go produces `+Inf`, is
  treated separately where a claim depends on it (`CrossEntropyGo`).
* Machine integers (`int64`, `uint32`, `int`) are embedded as `ℤ` and `ℕ`;
  none of the verified code relies on wrap-around.
* The bloom filter is idealized as an exact set of keys and the FNV-64
  content hash `tokensToKey` as the identity on token lists: this realises
  the "no false positive" hypothesis under which the bloom claims are
  stated.  The sizing parameters (expected items, false-positive rate)
  only tune the bloom bit array and are dropped.
* Mutating Go methods become functions returning the new state.
-/

/-! ## Trie nodes

`TrieNode` mirrors the Go struct `TrieNode{tokenID uint32; count int64;
children map[uint32]*TrieNode}`.  The child map is an association list.
-/

inductive TrieNode : Type where
  | mk (tokenID : ℕ) (count : ℤ) (children : List (ℕ × TrieNode))
deriving Repr

/-- Field accessor for the node's token id. -/
def TrieNode.tokenID : TrieNode → ℕ
  | .mk i _ _ => i

/-- Field accessor for the node's count. -/
def TrieNode.count : TrieNode → ℤ
  | .mk _ c _ => c

/-- Field accessor for the node's child map. -/
def TrieNode.children : TrieNode → List (ℕ × TrieNode)
  | .mk _ _ ch => ch

/-- Go `NewTrieNode(tokenID)`: a node with count 0 and no children. -/
def NewTrieNode (tokenID : ℕ) : TrieNode := .mk tokenID 0 []

/-- Lookup in a child map (Go `node.children[tokenID]`). -/
def lookupChild (k : ℕ) : List (ℕ × TrieNode) → Option TrieNode
  | [] => none
  | (k2, v) :: rest => if k2 = k then some v else lookupChild k rest

/-- Assignment into a child map (Go `node.children[tokenID] = child`):
replace the binding if the key is present, append it otherwise. -/
def setChild (k : ℕ) (v : TrieNode) : List (ℕ × TrieNode) → List (ℕ × TrieNode)
  | [] => [(k, v)]
  | (k2, v2) :: rest => if k2 = k then (k, v) :: rest else (k2, v2) :: setChild k v rest

/-- Descend along a token-id path from a node, creating missing children,
and increment the count of the terminal node.  This is the loop body of
`NGramTrie.Insert` after interning (Go lines: traverse/create path, then
`current.count++`). -/
def insertPath : List ℕ → TrieNode → TrieNode
  | [], .mk id c ch => .mk id (c + 1) ch
  | k :: rest, .mk id c ch =>
      match lookupChild k ch with
      | some child => .mk id c (setChild k (insertPath rest child) ch)
      | none => .mk id c (setChild k (insertPath rest (NewTrieNode k)) ch)

/-- Walk a token-id path and return the terminal count, or 0 if any step
is missing.  This is the traversal of `NGramTrie.GetCount` after the
token-id translation. -/
def nodeCountAt : List ℕ → TrieNode → ℤ
  | [], t => t.count
  | k :: rest, t =>
      match lookupChild k t.children with
      | some child => nodeCountAt rest child
      | none => 0

/-- Walk a token-id path; if the full path exists and the terminal count
is positive, decrement it.  Returns the new node and whether a decrement
happened.  This is the traversal of `NGramTrie.Remove` after the token-id
translation; the Go method walks with explicit pointers and mutates the
terminal node, which this function expresses by rebuilding the spine with
extensionally identical children. -/
def removePath : List ℕ → TrieNode → TrieNode × Bool
  | [], .mk id c ch => if 0 < c then (.mk id (c - 1) ch, true) else (.mk id c ch, false)
  | k :: rest, .mk id c ch =>
      match lookupChild k ch with
      | some child =>
          let r := removePath rest child
          (.mk id c (setChild k r.1 ch), r.2)
      | none => (.mk id c ch, false)

mutual

/-- Sum of the counts of every node of a subtree (the quantity
`Σ count(node)` of the spec's trie invariant). -/
def sumCounts : TrieNode → ℤ
  | .mk _ c ch => c + sumChildren ch

/-- Sum of `sumCounts` over a child map. -/
def sumChildren : List (ℕ × TrieNode) → ℤ
  | [] => 0
  | (_, t) :: rest => sumCounts t + sumChildren rest

end

mutual

/-- Every count in the subtree is non-negative (true of every state the
Go code can reach: counts start at 0, `Remove` floors at 0). -/
def nonnegB : TrieNode → Bool
  | .mk _ c ch => decide (0 ≤ c) && nonnegChildrenB ch

/-- `nonnegB` over a child map. -/
def nonnegChildrenB : List (ℕ × TrieNode) → Bool
  | [] => true
  | (_, t) :: rest => nonnegB t && nonnegChildrenB rest

end

mutual

/-- Go `NGramTrie.pruneNode`: post-order prune.  Children are pruned
first; a pruned child is deleted if its (post-prune) count is below the
threshold and it has no children left, with any positive deleted count
accounted; finally the node's own count is zeroed and accounted if it is
positive and below the threshold.  Returns the pruned node and the total
amount deducted from `totalNGrams` (which Go accumulates both in
`t.totalNGrams` and in `*pruned`). -/
def pruneNode (minCount : ℤ) : TrieNode → TrieNode × ℤ
  | .mk id c ch =>
      let r := pruneChildren minCount ch
      if c < minCount ∧ 0 < c then (.mk id 0 r.1, r.2 + c) else (.mk id c r.1, r.2)

/-- The child loop of `pruneNode`. -/
def pruneChildren (minCount : ℤ) : List (ℕ × TrieNode) → List (ℕ × TrieNode) × ℤ
  | [] => ([], 0)
  | (k, child) :: rest =>
      let rc := pruneNode minCount child
      let rr := pruneChildren minCount rest
      if rc.1.count < minCount ∧ rc.1.children.isEmpty = true then
        (rr.1, rc.2 + (if 0 < rc.1.count then rc.1.count else 0) + rr.2)
      else ((k, rc.1) :: rr.1, rc.2 + rr.2)

end

/-! ## The n-gram trie

`NGramTrie` mirrors the Go struct of the same name.  The bloom filter is
idealized as an exact set of keys (here: the token lists themselves, since
the FNV-64 key of `tokensToKey` is content-addressed), which realises the
claims' "no bloom false positive" hypothesis; its sizing parameters are
dropped.  The `sync.RWMutex` is dropped (single-state semantics).
-/

structure NGramTrie : Type where
  root : TrieNode
  tokenToID : List (String × ℕ)
  idToToken : List String
  nextID : ℕ
  totalTokens : ℤ
  totalNGrams : ℤ
  bloom : List (List String)
  useBloom : Bool
deriving Repr

/-- Go `NewNGramTrieWithBloom`: fresh trie; id 0 is reserved for the
sentinel `<ROOT>`, real ids start at 1. -/
def NewNGramTrieWithBloom (useBloom : Bool) : NGramTrie :=
  { root := NewTrieNode 0
    tokenToID := []
    idToToken := ["<ROOT>"]
    nextID := 1
    totalTokens := 0
    totalNGrams := 0
    bloom := []
    useBloom := useBloom }

/-- Go `NewNGramTrie()`: trie without bloom filter. -/
def NewNGramTrie : NGramTrie := NewNGramTrieWithBloom false

/-- Lookup of a token string in the interning table. -/
def lookupID (s : String) : List (String × ℕ) → Option ℕ
  | [] => none
  | (s2, i) :: rest => if s2 = s then some i else lookupID s rest

/-- Go `internToken`: return the existing id of a token or assign
`nextID`, appending to both directions of the table. -/
def NGramTrie.internToken (t : NGramTrie) (token : String) : ℕ × NGramTrie :=
  match lookupID token t.tokenToID with
  | some id => (id, t)
  | none =>
      (t.nextID,
       { t with
           tokenToID := t.tokenToID ++ [(token, t.nextID)]
           idToToken := t.idToToken ++ [token]
           nextID := t.nextID + 1 })

/-- The token-id conversion loop of `Insert`: intern each token in order,
returning the id path and the updated trie state. -/
def NGramTrie.internTokens (t : NGramTrie) : List String → List ℕ × NGramTrie
  | [] => ([], t)
  | tok :: rest =>
      let p := t.internToken tok
      let q := p.2.internTokens rest
      (p.1 :: q.1, q.2)

/-- Translate a token list through the interning table without modifying
it (the read-only conversion loops of `GetCount` and `Remove`); `none`
if any token was never interned. -/
def NGramTrie.tokenIDs? (t : NGramTrie) : List String → Option (List ℕ)
  | [] => some []
  | tok :: rest =>
      match lookupID tok t.tokenToID, t.tokenIDs? rest with
      | some i, some l => some (i :: l)
      | _, _ => none

/-- The non-bloom core of Go `NGramTrie.Insert`: intern the tokens,
descend the trie creating nodes, increment the terminal count and
`totalNGrams`. -/
def NGramTrie.insertCore (t : NGramTrie) (tokens : List String) : NGramTrie :=
  let p := t.internTokens tokens
  { p.2 with root := insertPath p.1 p.2.root, totalNGrams := p.2.totalNGrams + 1 }

/-- Go `NGramTrie.Insert`.  With the bloom filter enabled, a key not yet
in the filter is only added to the filter (singleton suppression) and the
trie is untouched; otherwise the insert proceeds. -/
def NGramTrie.Insert (t : NGramTrie) (tokens : List String) : NGramTrie :=
  if tokens = [] then t
  else if t.useBloom = true ∧ tokens ∉ t.bloom then { t with bloom := tokens :: t.bloom }
  else t.insertCore tokens

/-- Go `NGramTrie.GetCount`: translate the tokens (0 if any is unknown),
walk the path (0 if any step is missing), return the terminal count. -/
def NGramTrie.GetCount (t : NGramTrie) (tokens : List String) : ℤ :=
  if tokens = [] then 0
  else
    match t.tokenIDs? tokens with
    | none => 0
    | some ids => nodeCountAt ids t.root

/-- Go `NGramTrie.Remove`: translate the tokens (no-op if any is
unknown), walk the path (no-op if missing), decrement the terminal count
and `totalNGrams` when the count is positive.  The bloom filter is never
touched. -/
def NGramTrie.Remove (t : NGramTrie) (tokens : List String) : NGramTrie :=
  if tokens = [] then t
  else
    match t.tokenIDs? tokens with
    | none => t
    | some ids =>
        let r := removePath ids t.root
        { t with
            root := r.1
            totalNGrams := if r.2 then t.totalNGrams - 1 else t.totalNGrams }

/-- Go `NGramTrie.Prune`: prune the tree, deduct the accounted amount
from `totalNGrams`, return the deducted amount. -/
def NGramTrie.Prune (t : NGramTrie) (minCount : ℤ) : NGramTrie × ℤ :=
  let r := pruneNode minCount t.root
  ({ t with root := r.1, totalNGrams := t.totalNGrams - r.2 }, r.2)

/-- Go `NGramTrie.VocabularySize`: `len(t.tokenToID)`. -/
def NGramTrie.VocabularySize (t : NGramTrie) : ℕ := t.tokenToID.length

/-- Go `NGramTrie.TotalNGrams`. -/
def NGramTrie.TotalNGrams (t : NGramTrie) : ℤ := t.totalNGrams

/-! ## Smoothers

The Go `Smoother` interface has exactly two implementations; it is a
closed sum.  `AddKSmoother.k` is only reachable through `NewAddKSmoother`,
which clamps non-positive `k` to 1. -/

inductive Smoother : Type where
  | addK (k : ℚ)
  | wittenBell
deriving Repr, DecidableEq

/-- Go `NewAddKSmoother` (clamps `k ≤ 0` to Laplace smoothing). -/
def NewAddKSmoother (k : ℚ) : Smoother := .addK (if k ≤ 0 then 1 else k)

/-- Go `NewWittenBellSmoother`. -/
def NewWittenBellSmoother : Smoother := .wittenBell

/-- Go `Name()` of the two smoothers. -/
def Smoother.Name : Smoother → String
  | .addK _ => "AddK"
  | .wittenBell => "WittenBell"

/-- Go `AddKSmoother.Smooth` and `WittenBellSmoother.Smooth`, as exact
rational arithmetic.  Note: in Go, when `vocabularySize = 0` the
`contextCount == 0` branch computes `1.0/0 = +Inf`; rational division by
zero yields 0 instead, and the one claim that hinges on this corner is
settled against the faithful `smoothGo` below. -/
def Smoother.Smooth (s : Smoother) (ngramCount contextCount : ℤ)
    (backoffProb : ℚ) (vocabularySize : ℕ) : ℚ :=
  match s with
  | .addK k =>
      if contextCount = 0 then 1 / (vocabularySize : ℚ)
      else ((ngramCount : ℚ) + k) / ((contextCount : ℚ) + k * (vocabularySize : ℚ))
  | .wittenBell =>
      if contextCount = 0 then 1 / (vocabularySize : ℚ)
      else if 0 < ngramCount then
        ((contextCount : ℚ) / ((contextCount : ℚ) + (vocabularySize : ℚ))) *
          ((ngramCount : ℚ) / (contextCount : ℚ))
      else
        ((vocabularySize : ℚ) / ((contextCount : ℚ) + (vocabularySize : ℚ))) * backoffProb

/-! ## Basic trie lemmas -/

theorem lookupChild_setChild_self (k : ℕ) (v : TrieNode) :
    ∀ l : List (ℕ × TrieNode), lookupChild k (setChild k v l) = some v := by
  intro l
  induction l with
  | nil => simp [setChild, lookupChild]
  | cons p rest ih =>
      obtain ⟨k2, v2⟩ := p
      by_cases h : k2 = k <;> simp [setChild, lookupChild, h, ih]

theorem lookupChild_setChild_ne (k k2 : ℕ) (v : TrieNode) (h : k ≠ k2) :
    ∀ l : List (ℕ × TrieNode), lookupChild k2 (setChild k v l) = lookupChild k2 l := by
  intro l
  induction l with
  | nil => simp [setChild, lookupChild, h]
  | cons p rest ih =>
      obtain ⟨k3, v3⟩ := p
      by_cases h3 : k3 = k
      · subst h3
        simp [setChild, lookupChild, h]
      · simp [setChild, lookupChild, h3, ih]

theorem nodeCountAt_NewTrieNode (q : List ℕ) (k : ℕ) :
    nodeCountAt q (NewTrieNode k) = 0 := by
  cases q <;> simp [nodeCountAt, NewTrieNode, TrieNode.count, TrieNode.children, lookupChild]

/-- Inserting along path `p` increments the stored count exactly at `p`
and changes no other path. -/
theorem nodeCountAt_insertPath :
    ∀ (p q : List ℕ) (t : TrieNode),
      nodeCountAt q (insertPath p t) = nodeCountAt q t + (if q = p then 1 else 0) := by
  intro p
  induction p with
  | nil =>
      intro q t
      cases t with | mk id c ch =>
      cases q with
      | nil => simp [insertPath, nodeCountAt, TrieNode.count]
      | cons b qs => simp [insertPath, nodeCountAt, TrieNode.children]
  | cons a ps ih =>
      intro q t
      cases t with | mk id c ch =>
      cases q with
      | nil =>
          cases hf : lookupChild a ch <;>
            simp [insertPath, nodeCountAt, TrieNode.count, hf]
      | cons b qs =>
          by_cases hba : b = a
          · subst hba
            cases hf : lookupChild b ch with
            | some child =>
                simp only [insertPath, hf, nodeCountAt, TrieNode.children,
                  lookupChild_setChild_self, ih, List.cons.injEq, true_and]
            | none =>
                simp only [insertPath, hf, nodeCountAt, TrieNode.children,
                  lookupChild_setChild_self, ih, nodeCountAt_NewTrieNode,
                  List.cons.injEq, true_and, zero_add]
          · have hab : a ≠ b := fun h => hba h.symm
            cases hf : lookupChild b ch with
            | some child =>
                cases hfa : lookupChild a ch <;>
                  simp [insertPath, nodeCountAt, TrieNode.children, hfa,
                    lookupChild_setChild_ne a b _ hab, hf, hba]
            | none =>
                cases hfa : lookupChild a ch <;>
                  simp [insertPath, nodeCountAt, TrieNode.children, hfa,
                    lookupChild_setChild_ne a b _ hab, hf, hba]

/-- Removing along path `p` decrements the stored count exactly at `p`,
and only when that count was positive. -/
theorem nodeCountAt_removePath :
    ∀ (p q : List ℕ) (t : TrieNode),
      nodeCountAt q ((removePath p t).1) =
        nodeCountAt q t - (if q = p ∧ 0 < nodeCountAt p t then 1 else 0) := by
  intro p
  induction p with
  | nil =>
      intro q t
      cases t with | mk id c ch =>
      cases q with
      | nil =>
          by_cases hc : 0 < c <;>
            simp [removePath, nodeCountAt, TrieNode.count, hc]
      | cons b qs =>
          by_cases hc : 0 < c <;>
            simp [removePath, nodeCountAt, TrieNode.count, TrieNode.children, hc]
  | cons a ps ih =>
      intro q t
      cases t with | mk id c ch =>
      cases q with
      | nil =>
          cases hf : lookupChild a ch <;>
            simp [removePath, nodeCountAt, TrieNode.count, TrieNode.children, hf]
      | cons b qs =>
          by_cases hba : b = a
          · subst hba
            cases hf : lookupChild b ch with
            | some child =>
                simp only [removePath, hf, nodeCountAt, TrieNode.children,
                  lookupChild_setChild_self, ih, List.cons.injEq, true_and]
            | none =>
                simp [removePath, hf, nodeCountAt, TrieNode.children]
          · have hab : a ≠ b := fun h => hba h.symm
            cases hf : lookupChild b ch with
            | some child =>
                cases hfa : lookupChild a ch <;>
                  simp [removePath, nodeCountAt, TrieNode.children, hfa,
                    lookupChild_setChild_ne a b _ hab, hf, hba]
            | none =>
                cases hfa : lookupChild a ch <;>
                  simp [removePath, nodeCountAt, TrieNode.children, hfa,
                    lookupChild_setChild_ne a b _ hab, hf, hba]

/-- The decrement flag of `removePath` fires exactly when the terminal
count at the path is positive (a missing path stores 0). -/
theorem removePath_flag :
    ∀ (p : List ℕ) (t : TrieNode),
      (removePath p t).2 = true ↔ 0 < nodeCountAt p t := by
  intro p
  induction p with
  | nil =>
      intro t
      cases t with | mk id c ch =>
      by_cases hc : 0 < c <;> simp [removePath, nodeCountAt, TrieNode.count, hc]
  | cons a ps ih =>
      intro t
      cases t with | mk id c ch =>
      cases hf : lookupChild a ch with
      | some child => simp [removePath, nodeCountAt, TrieNode.children, hf, ih]
      | none => simp [removePath, nodeCountAt, TrieNode.children, hf]

/-! ## Count-sum and non-negativity lemmas -/

theorem sumChildren_setChild_found (k : ℕ) (v : TrieNode) :
    ∀ (l : List (ℕ × TrieNode)) (c : TrieNode), lookupChild k l = some c →
      sumChildren (setChild k v l) = sumChildren l - sumCounts c + sumCounts v := by
  intro l
  induction l with
  | nil => intro c h; simp [lookupChild] at h
  | cons p rest ih =>
      intro c h
      obtain ⟨k2, v2⟩ := p
      by_cases h2 : k2 = k
      · subst h2
        simp [lookupChild] at h
        subst h
        simp [setChild, sumChildren]
        ring
      · simp [lookupChild, h2] at h
        simp [setChild, h2, sumChildren, ih c h]
        ring

theorem sumChildren_setChild_none (k : ℕ) (v : TrieNode) :
    ∀ l : List (ℕ × TrieNode), lookupChild k l = none →
      sumChildren (setChild k v l) = sumChildren l + sumCounts v := by
  intro l
  induction l with
  | nil => intro _; simp [setChild, sumChildren]
  | cons p rest ih =>
      intro h
      obtain ⟨k2, v2⟩ := p
      by_cases h2 : k2 = k
      · simp [lookupChild, h2] at h
      · simp [lookupChild, h2] at h
        simp [setChild, h2, sumChildren, ih h]
        ring

theorem sumCounts_insertPath :
    ∀ (p : List ℕ) (t : TrieNode), sumCounts (insertPath p t) = sumCounts t + 1 := by
  intro p
  induction p with
  | nil =>
      intro t
      cases t with | mk id c ch =>
      simp [insertPath, sumCounts]
      ring
  | cons a ps ih =>
      intro t
      cases t with | mk id c ch =>
      cases hf : lookupChild a ch with
      | some child =>
          simp [insertPath, hf, sumCounts, sumChildren_setChild_found a _ ch child hf, ih]
          ring
      | none =>
          simp [insertPath, hf, sumCounts, sumChildren_setChild_none a _ ch hf, ih,
            NewTrieNode, sumChildren]
          ring

theorem sumCounts_removePath :
    ∀ (p : List ℕ) (t : TrieNode),
      sumCounts ((removePath p t).1) =
        sumCounts t - (if (removePath p t).2 then 1 else 0) := by
  intro p
  induction p with
  | nil =>
      intro t
      cases t with | mk id c ch =>
      by_cases hc : 0 < c
      · simp [removePath, hc, sumCounts]
        ring
      · simp [removePath, hc, sumCounts]
  | cons a ps ih =>
      intro t
      cases t with | mk id c ch =>
      cases hf : lookupChild a ch with
      | some child =>
          have := sumChildren_setChild_found a ((removePath ps child).1) ch child hf
          simp [removePath, hf, sumCounts, this, ih]
          ring
      | none => simp [removePath, hf]

theorem nonnegB_lookup (k : ℕ) :
    ∀ (l : List (ℕ × TrieNode)) (c : TrieNode), nonnegChildrenB l = true →
      lookupChild k l = some c → nonnegB c = true := by
  intro l
  induction l with
  | nil => intro c _ h; simp [lookupChild] at h
  | cons p rest ih =>
      intro c hn h
      obtain ⟨k2, v2⟩ := p
      simp [nonnegChildrenB, Bool.and_eq_true] at hn
      by_cases h2 : k2 = k
      · simp [lookupChild, h2] at h
        subst h
        exact hn.1
      · simp [lookupChild, h2] at h
        exact ih c hn.2 h

theorem nonnegChildrenB_setChild (k : ℕ) (v : TrieNode) :
    ∀ l : List (ℕ × TrieNode), nonnegChildrenB l = true → nonnegB v = true →
      nonnegChildrenB (setChild k v l) = true := by
  intro l
  induction l with
  | nil => intro _ hv; simp [setChild, nonnegChildrenB, hv]
  | cons p rest ih =>
      intro hn hv
      obtain ⟨k2, v2⟩ := p
      simp [nonnegChildrenB, Bool.and_eq_true] at hn
      by_cases h2 : k2 = k <;>
        simp [setChild, h2, nonnegChildrenB, Bool.and_eq_true, hv, hn, ih hn.2 hv]

theorem nonnegB_insertPath :
    ∀ (p : List ℕ) (t : TrieNode), nonnegB t = true → nonnegB (insertPath p t) = true := by
  intro p
  induction p with
  | nil =>
      intro t h
      cases t with | mk id c ch =>
      simp [nonnegB, Bool.and_eq_true] at h
      simp [insertPath, nonnegB, Bool.and_eq_true, h.2]
      omega
  | cons a ps ih =>
      intro t h
      cases t with | mk id c ch =>
      simp [nonnegB, Bool.and_eq_true] at h
      cases hf : lookupChild a ch with
      | some child =>
          have hchild := nonnegB_lookup a ch child h.2 hf
          simp [insertPath, hf, nonnegB, Bool.and_eq_true, h.1]
          exact nonnegChildrenB_setChild a _ ch h.2 (ih child hchild)
      | none =>
          have hnew : nonnegB (NewTrieNode a) = true := by
            simp [NewTrieNode, nonnegB, nonnegChildrenB]
          simp [insertPath, hf, nonnegB, Bool.and_eq_true, h.1]
          exact nonnegChildrenB_setChild a _ ch h.2 (ih _ hnew)

theorem nonnegB_removePath :
    ∀ (p : List ℕ) (t : TrieNode), nonnegB t = true →
      nonnegB ((removePath p t).1) = true := by
  intro p
  induction p with
  | nil =>
      intro t h
      cases t with | mk id c ch =>
      simp [nonnegB, Bool.and_eq_true] at h
      by_cases hc : 0 < c <;>
        simp [removePath, hc, nonnegB, Bool.and_eq_true, h.2] <;> omega
  | cons a ps ih =>
      intro t h
      cases t with | mk id c ch =>
      simp [nonnegB, Bool.and_eq_true] at h
      cases hf : lookupChild a ch with
      | some child =>
          have hchild := nonnegB_lookup a ch child h.2 hf
          simp [removePath, hf, nonnegB, Bool.and_eq_true, h.1]
          exact nonnegChildrenB_setChild a _ ch h.2 (ih child hchild)
      | none => simp [removePath, hf, nonnegB, Bool.and_eq_true, h.1, h.2]

/-! ## Tree induction and the prune accounting lemma -/

/-- Structural induction over `TrieNode` with a member-wise hypothesis
for the nested child list. -/
theorem TrieNode.inductionOn {P : TrieNode → Prop}
    (h : ∀ id c ch, (∀ kc ∈ ch, P kc.2) → P (TrieNode.mk id c ch)) (t : TrieNode) : P t := by
  have key : ∀ (n : ℕ) (t : TrieNode), sizeOf t ≤ n → P t := by
    intro n
    induction n with
    | zero =>
        intro t ht
        exfalso
        cases t with | mk id c ch =>
        simp only [TrieNode.mk.sizeOf_spec] at ht
        omega
    | succ n ihn =>
        intro t ht
        cases t with | mk id c ch =>
        apply h
        intro kc hkc
        apply ihn
        have h1 : sizeOf kc < sizeOf ch := List.sizeOf_lt_of_mem hkc
        have h2 : sizeOf kc.2 < sizeOf kc := by
          obtain ⟨k1, k2⟩ := kc
          simp only [Prod.mk.sizeOf_spec]
          omega
        simp only [TrieNode.mk.sizeOf_spec] at ht
        omega
  exact key (sizeOf t) t le_rfl

/-- The child loop of `pruneNode` deducts from the children's count sum
exactly the amount it reports, given the same property for each child. -/
theorem pruneChildren_sum_nonneg (m : ℤ) :
    ∀ l : List (ℕ × TrieNode),
      (∀ kc ∈ l, nonnegB kc.2 = true →
          sumCounts (pruneNode m kc.2).1 = sumCounts kc.2 - (pruneNode m kc.2).2 ∧
          nonnegB (pruneNode m kc.2).1 = true) →
      nonnegChildrenB l = true →
      sumChildren (pruneChildren m l).1 = sumChildren l - (pruneChildren m l).2 ∧
      nonnegChildrenB (pruneChildren m l).1 = true := by
  intro l
  induction l with
  | nil => intro _ _; simp [pruneChildren, sumChildren, nonnegChildrenB]
  | cons p rest ihl =>
      intro ih hnl
      obtain ⟨k, child⟩ := p
      have hmem : (k, child) ∈ (k, child) :: rest := by simp
      simp only [nonnegChildrenB, Bool.and_eq_true] at hnl
      obtain ⟨hc1, hc2⟩ := hnl
      have hrec := ih (k, child) hmem hc1
      dsimp only at hrec
      have hrest := ihl (fun kc hkc => ih kc (List.mem_cons_of_mem _ hkc)) hc2
      by_cases hdel :
          (pruneNode m child).1.count < m ∧ (pruneNode m child).1.children.isEmpty = true
      · obtain ⟨hd1, hd2⟩ := hdel
        have hleaf : sumCounts (pruneNode m child).1 = (pruneNode m child).1.count := by
          cases hp : (pruneNode m child).1 with | mk i2 c2 ch2 =>
          have hch2 : ch2 = [] := by
            have h2 := hd2
            rw [hp] at h2
            simpa [TrieNode.children, List.isEmpty_iff] using h2
          simp [hch2, sumCounts, sumChildren, TrieNode.count]
        have hcnt : 0 ≤ (pruneNode m child).1.count := by
          cases hp : (pruneNode m child).1 with | mk i2 c2 ch2 =>
          have h2 := hrec.2
          rw [hp] at h2
          simp only [nonnegB, Bool.and_eq_true, decide_eq_true_eq] at h2
          simpa [TrieNode.count] using h2.1
        simp only [pruneChildren, hd1, hd2, and_self, if_true, sumChildren]
        refine ⟨?_, hrest.2⟩
        rw [hrest.1]
        have hs := hrec.1
        rw [hleaf] at hs
        by_cases hpos : 0 < (pruneNode m child).1.count
        · simp only [hpos, if_true]
          omega
        · have hzero : (pruneNode m child).1.count = 0 := by omega
          simp only [hpos, if_false]
          omega
      · simp only [pruneChildren, hdel, if_false, sumChildren, nonnegChildrenB,
          Bool.and_eq_true]
        exact ⟨by rw [hrec.1, hrest.1]; ring, hrec.2, hrest.2⟩

/-- Pruning deducts from the count sum exactly the amount it reports (on
trees with non-negative counts, which are the reachable ones), and keeps
counts non-negative. -/
theorem pruneNode_sum_nonneg (m : ℤ) (t : TrieNode) :
    nonnegB t = true →
      sumCounts (pruneNode m t).1 = sumCounts t - (pruneNode m t).2 ∧
      nonnegB (pruneNode m t).1 = true := by
  induction t using TrieNode.inductionOn with
  | h id c ch ih =>
      intro hn
      simp only [nonnegB, Bool.and_eq_true, decide_eq_true_eq] at hn
      have hch := pruneChildren_sum_nonneg m ch ih hn.2
      by_cases hz : c < m ∧ 0 < c
      · simp only [pruneNode, hz, and_self, if_true, sumCounts]
        refine ⟨?_, ?_⟩
        · rw [hch.1]; ring
        · simp [nonnegB, Bool.and_eq_true, hch.2]
      · simp only [pruneNode, hz, if_false, sumCounts]
        refine ⟨by rw [hch.1]; ring, ?_⟩
        simp [nonnegB, Bool.and_eq_true, hch.2, hn.1]

/-! ## Interning preserves the non-table fields -/

theorem internToken_fields (t : NGramTrie) (s : String) :
    (t.internToken s).2.root = t.root ∧
    (t.internToken s).2.totalNGrams = t.totalNGrams ∧
    (t.internToken s).2.bloom = t.bloom ∧
    (t.internToken s).2.useBloom = t.useBloom ∧
    (t.internToken s).2.totalTokens = t.totalTokens := by
  unfold NGramTrie.internToken
  cases lookupID s t.tokenToID <;> simp

theorem internTokens_fields :
    ∀ (l : List String) (t : NGramTrie),
      (t.internTokens l).2.root = t.root ∧
      (t.internTokens l).2.totalNGrams = t.totalNGrams ∧
      (t.internTokens l).2.bloom = t.bloom ∧
      (t.internTokens l).2.useBloom = t.useBloom ∧
      (t.internTokens l).2.totalTokens = t.totalTokens := by
  intro l
  induction l with
  | nil => intro t; simp [NGramTrie.internTokens]
  | cons tok rest ih =>
      intro t
      have h1 := internToken_fields t tok
      have h2 := ih (t.internToken tok).2
      simp only [NGramTrie.internTokens]
      exact ⟨h2.1.trans h1.1, h2.2.1.trans h1.2.1, h2.2.2.1.trans h1.2.2.1,
        h2.2.2.2.1.trans h1.2.2.2.1, h2.2.2.2.2.trans h1.2.2.2.2⟩

/-! ## Claim C8: the totalNGrams invariant -/

/-- The spec's trie invariant `totalNGrams = Σ count(node)`, strengthened
with non-negativity of every count (which also holds in every reachable
state and is needed for `Prune` preservation). -/
def TrieCountInvariant (t : NGramTrie) : Prop :=
  t.totalNGrams = sumCounts t.root ∧ nonnegB t.root = true

/-- C8: for the n-gram trie, the invariant `totalNGrams = Σ count(node)`
over all nodes holds in the initial state (with or without bloom) and is
preserved by every `Insert`, every `Remove`, and every `Prune(min_count)`.
The invariant proved is the spec equality together with non-negativity of
all counts; the equality of the claim is its first component. -/
theorem C8_trie_count_invariant :
    (∀ b : Bool, TrieCountInvariant (NewNGramTrieWithBloom b)) ∧
    (∀ (t : NGramTrie) (tokens : List String),
      TrieCountInvariant t → TrieCountInvariant (t.Insert tokens)) ∧
    (∀ (t : NGramTrie) (tokens : List String),
      TrieCountInvariant t → TrieCountInvariant (t.Remove tokens)) ∧
    (∀ (t : NGramTrie) (minCount : ℤ),
      TrieCountInvariant t → TrieCountInvariant (t.Prune minCount).1) := by
  refine ⟨?_, ?_, ?_, ?_⟩
  · intro b
    constructor <;>
      simp [NewNGramTrieWithBloom, NewTrieNode, sumCounts, sumChildren, nonnegB,
        nonnegChildrenB]
  · intro t tokens hinv
    unfold NGramTrie.Insert
    by_cases h0 : tokens = []
    · simpa [h0] using hinv
    · by_cases hb : t.useBloom = true ∧ tokens ∉ t.bloom
      · simpa [h0, hb, TrieCountInvariant] using hinv
      · have hf := internTokens_fields tokens t
        constructor
        · simp only [h0, hb, if_false, NGramTrie.insertCore, TrieCountInvariant]
          rw [sumCounts_insertPath, hf.1, hf.2.1, hinv.1]
        · simp only [h0, hb, if_false, NGramTrie.insertCore, TrieCountInvariant]
          rw [hf.1]
          exact nonnegB_insertPath _ _ hinv.2
  · intro t tokens hinv
    unfold NGramTrie.Remove
    by_cases h0 : tokens = []
    · simpa [h0] using hinv
    · cases hids : t.tokenIDs? tokens with
      | none => simpa [h0, hids] using hinv
      | some ids =>
          constructor
          · simp only [h0, hids, if_false, TrieCountInvariant]
            rw [sumCounts_removePath, hinv.1]
            by_cases hfl : (removePath ids t.root).2 = true <;> simp [hfl]
          · simp only [h0, hids, if_false, TrieCountInvariant]
            exact nonnegB_removePath _ _ hinv.2
  · intro t minCount hinv
    have h := pruneNode_sum_nonneg minCount t.root hinv.2
    constructor
    · simp only [NGramTrie.Prune, TrieCountInvariant]
      rw [h.1, hinv.1]
    · simpa only [NGramTrie.Prune, TrieCountInvariant] using h.2

/-- Witness for C8 at concrete inputs: the invariant holds of a fresh
bloom-less trie and is carried through an `Insert`, a `Remove` and a
`Prune` by the theorem. -/
theorem C8_trie_count_invariant_witness :
    TrieCountInvariant
      ((((NewNGramTrie.Insert ["a", "b"]).Remove ["a", "b"]).Prune 1).1) :=
  C8_trie_count_invariant.2.2.2 _ 1
    (C8_trie_count_invariant.2.2.1 _ ["a", "b"]
      (C8_trie_count_invariant.2.1 _ ["a", "b"]
        (C8_trie_count_invariant.1 false)))

/-! ## Interning-table well-formedness

`TableWF` packages the invariants of the Go interning table: every
assigned id is below `nextID`, and entries have pairwise distinct token
strings and pairwise distinct ids. -/

def TableWF (tab : List (String × ℕ)) (N : ℕ) : Prop :=
  (∀ p ∈ tab, p.2 < N) ∧ tab.Pairwise (fun p q => p.1 ≠ q.1 ∧ p.2 ≠ q.2)

/-- Well-formedness of a trie state: the table is well-formed and every
id path through a not-yet-assigned id stores count 0 (fresh ids are
absent from the tree). -/
def TrieWF (t : NGramTrie) : Prop :=
  TableWF t.tokenToID t.nextID ∧
  ∀ q : List ℕ, (∃ i ∈ q, t.nextID ≤ i) → nodeCountAt q t.root = 0

theorem lookupID_mem (s : String) :
    ∀ (tab : List (String × ℕ)) (i : ℕ), lookupID s tab = some i → (s, i) ∈ tab := by
  intro tab
  induction tab with
  | nil => intro i h; simp [lookupID] at h
  | cons p rest ih =>
      intro i h
      obtain ⟨s2, i2⟩ := p
      by_cases h2 : s2 = s
      · subst h2
        simp [lookupID] at h
        simp [h]
      · simp [lookupID, h2] at h
        simp [ih i h]

theorem lookupID_none (s : String) :
    ∀ tab : List (String × ℕ), lookupID s tab = none ↔ ∀ p ∈ tab, p.1 ≠ s := by
  intro tab
  induction tab with
  | nil => simp [lookupID]
  | cons p rest ih =>
      obtain ⟨s2, i2⟩ := p
      by_cases h2 : s2 = s <;> simp [lookupID, h2, ih]

theorem lookupID_append_some (s : String) (i : ℕ) (l2 : List (String × ℕ)) :
    ∀ l1, lookupID s l1 = some i → lookupID s (l1 ++ l2) = some i := by
  intro l1
  induction l1 with
  | nil => intro h; simp [lookupID] at h
  | cons p rest ih =>
      intro h
      obtain ⟨s2, i2⟩ := p
      by_cases h2 : s2 = s
      · subst h2
        simp [lookupID] at h ⊢
        exact h
      · simp [lookupID, h2] at h ⊢
        exact ih h

theorem lookupID_append_none (s : String) (l2 : List (String × ℕ)) :
    ∀ l1, lookupID s l1 = none → lookupID s (l1 ++ l2) = lookupID s l2 := by
  intro l1
  induction l1 with
  | nil => intro _; simp
  | cons p rest ih =>
      intro h
      obtain ⟨s2, i2⟩ := p
      by_cases h2 : s2 = s
      · simp [lookupID, h2] at h
      · simp [lookupID, h2] at h ⊢
        exact ih h

/-- In a well-formed table, an id determines the token string. -/
theorem TableWF.id_injective {tab : List (String × ℕ)} {N : ℕ} (h : TableWF tab N)
    {s1 s2 : String} {i : ℕ} (h1 : (s1, i) ∈ tab) (h2 : (s2, i) ∈ tab) : s1 = s2 := by
  by_cases heq : (s1, i) = (s2, i)
  · exact congrArg Prod.fst heq
  · have hsymm : Symmetric (fun p q : String × ℕ => p.1 ≠ q.1 ∧ p.2 ≠ q.2) := by
      intro p q hpq
      exact ⟨fun h => hpq.1 h.symm, fun h => hpq.2 h.symm⟩
    have := (List.Pairwise.forall hsymm h.2) h1 h2 heq
    exact absurd rfl this.2

/-! ## The interning specification -/

theorem internToken_spec (t : NGramTrie) (s : String)
    (hWF : TableWF t.tokenToID t.nextID) :
    lookupID s (t.internToken s).2.tokenToID = some (t.internToken s).1 ∧
    t.nextID ≤ (t.internToken s).2.nextID ∧
    (∀ s2 i, lookupID s2 t.tokenToID = some i →
      lookupID s2 (t.internToken s).2.tokenToID = some i) ∧
    (∀ s2 i, lookupID s2 (t.internToken s).2.tokenToID = some i →
      lookupID s2 t.tokenToID = some i ∨ t.nextID ≤ i) ∧
    (t.internToken s).1 < (t.internToken s).2.nextID ∧
    TableWF (t.internToken s).2.tokenToID (t.internToken s).2.nextID := by
  cases hl : lookupID s t.tokenToID with
  | some i =>
      have hlt : i < t.nextID := hWF.1 (s, i) (lookupID_mem s _ i hl)
      refine ⟨?_, ?_, ?_, ?_, ?_, ?_⟩ <;>
        simp [NGramTrie.internToken, hl, hWF, hlt]
      intro s2 j h
      exact Or.inl h
  | none =>
      have hfresh : ∀ p ∈ t.tokenToID, p.1 ≠ s := (lookupID_none s t.tokenToID).1 hl
      refine ⟨?_, ?_, ?_, ?_, ?_, ?_⟩
      · simp only [NGramTrie.internToken, hl]
        rw [lookupID_append_none s _ _ hl]
        simp [lookupID]
      · simp [NGramTrie.internToken, hl]
      · intro s2 i h
        simp only [NGramTrie.internToken, hl]
        exact lookupID_append_some s2 i _ _ h
      · intro s2 i h
        simp only [NGramTrie.internToken, hl] at h
        cases hl2 : lookupID s2 t.tokenToID with
        | some j =>
            have hap := lookupID_append_some s2 j [(s, t.nextID)] _ hl2
            rw [hap] at h
            have hji : j = i := Option.some.inj h
            subst hji
            exact Or.inl rfl
        | none =>
            rw [lookupID_append_none s2 _ _ hl2] at h
            right
            by_cases h2 : s = s2
            · subst h2
              simp [lookupID] at h
              omega
            · simp [lookupID, h2] at h
      · simp [NGramTrie.internToken, hl]
      · constructor
        · intro p hp
          simp only [NGramTrie.internToken, hl, List.mem_append, List.mem_singleton] at hp
          rcases hp with hp | hp
          · have := hWF.1 p hp
            simp only [NGramTrie.internToken, hl]
            omega
          · subst hp
            simp [NGramTrie.internToken, hl]
        · simp only [NGramTrie.internToken, hl]
          rw [List.pairwise_append]
          refine ⟨hWF.2, List.pairwise_singleton _ _, ?_⟩
          intro p hp q hq
          simp only [List.mem_singleton] at hq
          subst hq
          refine ⟨hfresh p hp, ?_⟩
          have := hWF.1 p hp
          omega

theorem internTokens_spec :
    ∀ (l : List String) (t : NGramTrie), TableWF t.tokenToID t.nextID →
      (t.internTokens l).2.tokenIDs? l = some (t.internTokens l).1 ∧
      t.nextID ≤ (t.internTokens l).2.nextID ∧
      (∀ s2 i, lookupID s2 t.tokenToID = some i →
        lookupID s2 (t.internTokens l).2.tokenToID = some i) ∧
      (∀ s2 i, lookupID s2 (t.internTokens l).2.tokenToID = some i →
        lookupID s2 t.tokenToID = some i ∨ t.nextID ≤ i) ∧
      (∀ i ∈ (t.internTokens l).1, i < (t.internTokens l).2.nextID) ∧
      TableWF (t.internTokens l).2.tokenToID (t.internTokens l).2.nextID := by
  intro l
  induction l with
  | nil =>
      intro t hWF
      refine ⟨rfl, le_rfl, fun s2 i h => h, fun s2 i h => Or.inl h,
        by simp [NGramTrie.internTokens], hWF⟩
  | cons tok rest ih =>
      intro t hWF
      have h1 := internToken_spec t tok hWF
      have h2 := ih (t.internToken tok).2 h1.2.2.2.2.2
      simp only [NGramTrie.internTokens]
      refine ⟨?_, ?_, ?_, ?_, ?_, h2.2.2.2.2.2⟩
      · simp only [NGramTrie.tokenIDs?]
        rw [h2.2.2.1 tok (t.internToken tok).1 h1.1, h2.1]
      · exact le_trans h1.2.1 h2.2.1
      · intro s2 i h
        exact h2.2.2.1 s2 i (h1.2.2.1 s2 i h)
      · intro s2 i h
        rcases h2.2.2.2.1 s2 i h with h3 | h3
        · rcases h1.2.2.2.1 s2 i h3 with h4 | h4
          · exact Or.inl h4
          · exact Or.inr h4
        · exact Or.inr (le_trans h1.2.1 h3)
      · intro i hi
        simp only [List.mem_cons] at hi
        rcases hi with hi | hi
        · subst hi
          calc (t.internToken tok).1 < (t.internToken tok).2.nextID := h1.2.2.2.2.1
            _ ≤ _ := h2.2.1
        · exact h2.2.2.2.2.1 i hi

/-! ## Token-path translation lemmas -/

theorem tokenIDs?_depends (t1 t2 : NGramTrie) (htab : t1.tokenToID = t2.tokenToID) :
    ∀ g : List String, t1.tokenIDs? g = t2.tokenIDs? g := by
  intro g
  induction g with
  | nil => rfl
  | cons a as ih => simp [NGramTrie.tokenIDs?, htab, ih]

theorem tokenIDs?_congr (t t2 : NGramTrie)
    (hpres : ∀ s i, lookupID s t.tokenToID = some i → lookupID s t2.tokenToID = some i) :
    ∀ (g : List String) (ids : List ℕ), t.tokenIDs? g = some ids → t2.tokenIDs? g = some ids := by
  intro g
  induction g with
  | nil => intro ids h; simpa [NGramTrie.tokenIDs?] using h
  | cons a as ih =>
      intro ids h
      simp only [NGramTrie.tokenIDs?] at h ⊢
      cases hla : lookupID a t.tokenToID with
      | none => simp [hla] at h
      | some i =>
          cases hrest : t.tokenIDs? as with
          | none => simp [hla, hrest] at h
          | some l =>
              simp only [hla, hrest] at h
              rw [hpres a i hla, ih l hrest]
              exact h

theorem tokenIDs?_inj (t : NGramTrie) (hWF : TableWF t.tokenToID t.nextID) :
    ∀ (g1 g2 : List String) (ids : List ℕ),
      t.tokenIDs? g1 = some ids → t.tokenIDs? g2 = some ids → g1 = g2 := by
  intro g1
  induction g1 with
  | nil =>
      intro g2 ids h1 h2
      simp only [NGramTrie.tokenIDs?] at h1
      cases g2 with
      | nil => rfl
      | cons b bs =>
          simp only [NGramTrie.tokenIDs?] at h2
          cases hlb : lookupID b t.tokenToID with
          | none => simp [hlb] at h2
          | some j =>
              cases hrb : t.tokenIDs? bs with
              | none => simp [hlb, hrb] at h2
              | some lb =>
                  simp only [hlb, hrb] at h2
                  rw [← h1] at h2
                  simp at h2
  | cons a as ih =>
      intro g2 ids h1 h2
      simp only [NGramTrie.tokenIDs?] at h1
      cases hla : lookupID a t.tokenToID with
      | none => simp [hla] at h1
      | some i =>
          cases hra : t.tokenIDs? as with
          | none => simp [hla, hra] at h1
          | some la =>
              simp only [hla, hra] at h1
              cases g2 with
              | nil =>
                  simp only [NGramTrie.tokenIDs?] at h2
                  rw [← h1] at h2
                  simp at h2
              | cons b bs =>
                  simp only [NGramTrie.tokenIDs?] at h2
                  cases hlb : lookupID b t.tokenToID with
                  | none => simp [hlb] at h2
                  | some j =>
                      cases hrb : t.tokenIDs? bs with
                      | none => simp [hlb, hrb] at h2
                      | some lb =>
                          simp only [hlb, hrb] at h2
                          rw [← h1] at h2
                          have h3 : j :: lb = i :: la := Option.some.inj h2
                          injection h3 with hid htl
                          have hab : a = b :=
                            hWF.id_injective (lookupID_mem a _ i hla)
                              (hid ▸ lookupID_mem b _ j hlb)
                          rw [hab, ih bs la hra (htl ▸ hrb)]

/-- If a token list fails to translate in the old table but translates in
an extended table whose new bindings all have ids at least `t.nextID`,
some produced id is at least `t.nextID`. -/
theorem tokenIDs?_fresh (t t2 : NGramTrie)
    (hext : ∀ s i, lookupID s t2.tokenToID = some i →
      lookupID s t.tokenToID = some i ∨ t.nextID ≤ i) :
    ∀ (g : List String) (ids : List ℕ),
      t.tokenIDs? g = none → t2.tokenIDs? g = some ids → ∃ i ∈ ids, t.nextID ≤ i := by
  intro g
  induction g with
  | nil => intro ids h1 _; simp [NGramTrie.tokenIDs?] at h1
  | cons a as ih =>
      intro ids h1 h2
      simp only [NGramTrie.tokenIDs?] at h1 h2
      cases hlb : lookupID a t2.tokenToID with
      | none => simp [hlb] at h2
      | some j =>
          cases hrb : t2.tokenIDs? as with
          | none => simp [hlb, hrb] at h2
          | some lb =>
              simp only [hlb, hrb] at h2
              cases hla : lookupID a t.tokenToID with
              | none =>
                  rcases hext a j hlb with hc | hc
                  · rw [hla] at hc; exact absurd hc (by simp)
                  · have hids : j :: lb = ids := Option.some.inj h2
                    refine ⟨j, ?_, hc⟩
                    rw [← hids]
                    simp
              | some i =>
                  cases hra : t.tokenIDs? as with
                  | none =>
                      obtain ⟨i2, hi2, hge⟩ := ih lb hra hrb
                      have hids : j :: lb = ids := Option.some.inj h2
                      refine ⟨i2, ?_, hge⟩
                      rw [← hids]
                      simp [hi2]
                  | some la => simp [hla, hra] at h1

/-! ## Effect of Insert and Remove on GetCount -/

theorem GetCount_some (t : NGramTrie) (g : List String) (hg : g ≠ [])
    (ids : List ℕ) (h : t.tokenIDs? g = some ids) :
    t.GetCount g = nodeCountAt ids t.root := by
  simp [NGramTrie.GetCount, hg, h]

theorem GetCount_none (t : NGramTrie) (g : List String) (hg : g ≠ [])
    (h : t.tokenIDs? g = none) : t.GetCount g = 0 := by
  simp [NGramTrie.GetCount, hg, h]

theorem insertCore_root (t : NGramTrie) (h : List String) :
    (t.insertCore h).root = insertPath (t.internTokens h).1 t.root := by
  show insertPath (t.internTokens h).1 (t.internTokens h).2.root = _
  rw [(internTokens_fields h t).1]

/-- Effect of the non-bloom insert on `GetCount`: the queried count
increases by one exactly at the inserted token sequence. -/
theorem insertCore_getCount (t : NGramTrie) (h g : List String)
    (hWF : TrieWF t) (hg : g ≠ []) :
    (t.insertCore h).GetCount g = t.GetCount g + (if g = h then 1 else 0) := by
  have spec := internTokens_spec h t hWF.1
  have htids : ∀ x, (t.insertCore h).tokenIDs? x = (t.internTokens h).2.tokenIDs? x :=
    tokenIDs?_depends _ _ rfl
  cases hq : (t.internTokens h).2.tokenIDs? g with
  | none =>
      rw [GetCount_none _ g hg ((htids g).trans hq)]
      cases hq0 : t.tokenIDs? g with
      | some ids0 =>
          have hc := tokenIDs?_congr t (t.internTokens h).2 spec.2.2.1 g ids0 hq0
          rw [hq] at hc
          exact absurd hc (by simp)
      | none =>
          have hgh : g ≠ h := by
            intro he
            subst he
            rw [spec.1] at hq
            exact absurd hq (by simp)
          rw [GetCount_none _ g hg hq0]
          simp [hgh]
  | some ids =>
      rw [GetCount_some _ g hg ids ((htids g).trans hq), insertCore_root,
        nodeCountAt_insertPath]
      by_cases hgh : g = h
      · subst hgh
        have hids : ids = (t.internTokens g).1 := by
          rw [spec.1] at hq
          exact (Option.some.inj hq).symm
        cases hq0 : t.tokenIDs? g with
        | some ids0 =>
            have hpres := tokenIDs?_congr t _ spec.2.2.1 g ids0 hq0
            rw [hq] at hpres
            have hsame : ids0 = ids := (Option.some.inj hpres).symm
            subst hsame
            rw [GetCount_some _ g hg ids0 hq0]
            simp [hids]
        | none =>
            have hfr := tokenIDs?_fresh t _ spec.2.2.2.1 g ids hq0 hq
            rw [hWF.2 ids hfr, GetCount_none _ g hg hq0]
            simp [hids]
      · have hneq : ids ≠ (t.internTokens h).1 := by
          intro he
          apply hgh
          apply tokenIDs?_inj (t.internTokens h).2 spec.2.2.2.2.2 g h ids hq
          rw [spec.1, he]
        cases hq0 : t.tokenIDs? g with
        | some ids0 =>
            have hpres := tokenIDs?_congr t _ spec.2.2.1 g ids0 hq0
            rw [hq] at hpres
            have hsame : ids0 = ids := (Option.some.inj hpres).symm
            subst hsame
            rw [GetCount_some _ g hg ids0 hq0]
            simp [hneq, hgh]
        | none =>
            have hfr := tokenIDs?_fresh t _ spec.2.2.2.1 g ids hq0 hq
            rw [hWF.2 ids hfr, GetCount_none _ g hg hq0]
            simp [hneq, hgh]

theorem insertCore_WF (t : NGramTrie) (h : List String) (hWF : TrieWF t) :
    TrieWF (t.insertCore h) := by
  have spec := internTokens_spec h t hWF.1
  constructor
  · exact spec.2.2.2.2.2
  · intro q hq
    have hnext : (t.insertCore h).nextID = (t.internTokens h).2.nextID := rfl
    rw [hnext] at hq
    rw [insertCore_root, nodeCountAt_insertPath]
    obtain ⟨i, hi, hgei⟩ := hq
    have hne : q ≠ (t.internTokens h).1 := by
      intro he
      subst he
      have := spec.2.2.2.2.1 i hi
      exact absurd hgei (by omega)
    rw [hWF.2 q ⟨i, hi, le_trans spec.2.1 hgei⟩]
    simp [hne]

theorem insertCore_fields (t : NGramTrie) (h : List String) :
    (t.insertCore h).bloom = t.bloom ∧ (t.insertCore h).useBloom = t.useBloom := by
  have hflds := internTokens_fields h t
  exact ⟨hflds.2.2.1, hflds.2.2.2.1⟩

/-- Effect of `Remove` on `GetCount`: the queried count decreases by one
exactly at the removed sequence, and only if it was positive. -/
theorem Remove_getCount (t : NGramTrie) (h g : List String)
    (hWF : TrieWF t) (hg : g ≠ []) :
    (t.Remove h).GetCount g =
      t.GetCount g - (if g = h ∧ 0 < t.GetCount h then 1 else 0) := by
  by_cases hh : h = []
  · subst hh
    have hc : ¬(g = [] ∧ 0 < t.GetCount []) := fun hc => hg hc.1
    simp [NGramTrie.Remove, hc]
  · cases hq : t.tokenIDs? h with
    | none =>
        have hch : t.GetCount h = 0 := GetCount_none _ h hh hq
        simp [NGramTrie.Remove, hh, hq, hch]
    | some idsh =>
        have hth : t.GetCount h = nodeCountAt idsh t.root := GetCount_some _ h hh idsh hq
        have htids : ∀ x, (t.Remove h).tokenIDs? x = t.tokenIDs? x := by
          intro x
          apply tokenIDs?_depends
          simp [NGramTrie.Remove, hh, hq]
        have hroot : (t.Remove h).root = (removePath idsh t.root).1 := by
          simp [NGramTrie.Remove, hh, hq]
        cases hq0 : t.tokenIDs? g with
        | none =>
            have hcon : ¬(g = h ∧ 0 < t.GetCount h) := by
              rintro ⟨he, _⟩
              subst he
              rw [hq0] at hq
              exact absurd hq (by simp)
            rw [GetCount_none _ g hg ((htids g).trans hq0), GetCount_none _ g hg hq0]
            simp [hcon]
        | some idsg =>
            rw [GetCount_some _ g hg idsg ((htids g).trans hq0), hroot,
              nodeCountAt_removePath, GetCount_some _ g hg idsg hq0]
            by_cases hgh : g = h
            · subst hgh
              have hsame : idsg = idsh := by
                rw [hq0] at hq
                exact Option.some.inj hq
              subst hsame
              rw [hth]
              simp
            · have hneq : idsg ≠ idsh := by
                intro he
                apply hgh
                exact tokenIDs?_inj t hWF.1 g h idsg hq0 (he ▸ hq)
              simp [hneq, hgh]

theorem Remove_WF (t : NGramTrie) (h : List String) (hWF : TrieWF t) :
    TrieWF (t.Remove h) := by
  by_cases hh : h = []
  · subst hh
    simpa [NGramTrie.Remove] using hWF
  · cases hq : t.tokenIDs? h with
    | none => simpa [NGramTrie.Remove, hh, hq] using hWF
    | some idsh =>
        constructor
        · have hflds : (t.Remove h).tokenToID = t.tokenToID ∧ (t.Remove h).nextID = t.nextID := by
            simp [NGramTrie.Remove, hh, hq]
          rw [hflds.1, hflds.2]
          exact hWF.1
        · intro q hfr
          have hroot : (t.Remove h).root = (removePath idsh t.root).1 := by
            simp [NGramTrie.Remove, hh, hq]
          have hnext : (t.Remove h).nextID = t.nextID := by
            simp [NGramTrie.Remove, hh, hq]
          rw [hnext] at hfr
          rw [hroot, nodeCountAt_removePath, hWF.2 q hfr]
          by_cases hqh : q = idsh
          · subst hqh
            rw [hWF.2 q hfr]
            simp
          · simp [hqh]

theorem Remove_fields (t : NGramTrie) (h : List String) :
    (t.Remove h).bloom = t.bloom ∧ (t.Remove h).useBloom = t.useBloom ∧
    (t.Remove h).tokenToID = t.tokenToID := by
  unfold NGramTrie.Remove
  by_cases hh : h = []
  · simp [hh]
  · cases hq : t.tokenIDs? h with
    | none => simp [hh, hq]
    | some ids => simp [hh, hq]

/-! ## Claim C2: bloom singleton suppression -/

/-- Apply a sequence of `Insert` calls (the reachable states of claim C2). -/
def runInserts (t : NGramTrie) (ops : List (List String)) : NGramTrie :=
  ops.foldl NGramTrie.Insert t

/-- Invariant tying a bloom-enabled trie to the per-sequence insert count
`C`: the stored count lags the insert count by exactly one (floored at 0),
and the bloom filter holds exactly the sequences inserted at least once. -/
def BloomInv (t : NGramTrie) (C : List String → ℕ) : Prop :=
  TrieWF t ∧ t.useBloom = true ∧
  ∀ g : List String, g ≠ [] →
    (t.GetCount g = max ((C g : ℤ) - 1) 0 ∧ (g ∈ t.bloom ↔ 1 ≤ C g))

theorem BloomInv_congr {t : NGramTrie} {C C2 : List String → ℕ}
    (h : BloomInv t C) (he : ∀ g, C g = C2 g) : BloomInv t C2 := by
  refine ⟨h.1, h.2.1, ?_⟩
  intro g hg
  rw [← he g]
  exact h.2.2 g hg

theorem tokenIDs?_empty_table (t : NGramTrie) (htab : t.tokenToID = [])
    (g : List String) (hg : g ≠ []) : t.tokenIDs? g = none := by
  cases g with
  | nil => exact absurd rfl hg
  | cons a as => simp [NGramTrie.tokenIDs?, htab, lookupID]

theorem BloomInv_init : BloomInv (NewNGramTrieWithBloom true) (fun _ => 0) := by
  refine ⟨⟨⟨by simp [NewNGramTrieWithBloom], by simp [NewNGramTrieWithBloom]⟩, ?_⟩, rfl, ?_⟩
  · intro q _
    exact nodeCountAt_NewTrieNode q 0
  · intro g hg
    constructor
    · rw [GetCount_none _ g hg (tokenIDs?_empty_table _ rfl g hg)]
      simp
    · simp [NewNGramTrieWithBloom]

theorem GetCount_depends (t1 t2 : NGramTrie) (htab : t1.tokenToID = t2.tokenToID)
    (hroot : t1.root = t2.root) : ∀ g : List String, t1.GetCount g = t2.GetCount g := by
  intro g
  by_cases hg : g = []
  · simp [NGramTrie.GetCount, hg]
  · cases hq : t2.tokenIDs? g with
    | none =>
        rw [GetCount_none t2 g hg hq,
          GetCount_none t1 g hg (by rw [tokenIDs?_depends t1 t2 htab g, hq])]
    | some ids =>
        rw [GetCount_some t2 g hg ids hq,
          GetCount_some t1 g hg ids (by rw [tokenIDs?_depends t1 t2 htab g, hq]), hroot]

theorem Insert_bloom_step (t : NGramTrie) (h : List String) (C : List String → ℕ)
    (hInv : BloomInv t C) :
    BloomInv (t.Insert h) (fun g => if g = h then C g + 1 else C g) := by
  by_cases hh : h = []
  · subst hh
    have hid : t.Insert [] = t := by simp [NGramTrie.Insert]
    rw [hid]
    refine ⟨hInv.1, hInv.2.1, ?_⟩
    intro g hg
    dsimp only
    simp only [hg, if_false]
    exact hInv.2.2 g hg
  · by_cases hmem : h ∈ t.bloom
    · have hgate : ¬(t.useBloom = true ∧ h ∉ t.bloom) := fun hc => hc.2 hmem
      have hins : t.Insert h = t.insertCore h := by
        simp [NGramTrie.Insert, hh, hgate]
      rw [hins]
      refine ⟨insertCore_WF t h hInv.1, (insertCore_fields t h).2.trans hInv.2.1, ?_⟩
      intro g hg
      dsimp only
      rw [insertCore_getCount t h g hInv.1 hg, (insertCore_fields t h).1]
      obtain ⟨hcg, hbg⟩ := hInv.2.2 g hg
      by_cases hgh : g = h
      · subst hgh
        have hge1 : 1 ≤ C g := (hInv.2.2 g hg).2.1 hmem
        simp only [eq_self_iff_true, if_true]
        constructor
        · rw [hcg]
          push_cast
          omega
        · constructor
          · intro _; omega
          · intro _; exact hmem
      · simp only [hgh, if_false]
        rw [hcg]
        exact ⟨by ring, hbg⟩
    · have hgate : t.useBloom = true ∧ h ∉ t.bloom := ⟨hInv.2.1, hmem⟩
      have hins : t.Insert h = { t with bloom := h :: t.bloom } := by
        simp [NGramTrie.Insert, hh, hgate]
      rw [hins]
      have hCh : C h = 0 := by
        by_contra hne
        exact hmem ((hInv.2.2 h hh).2.2 (by omega))
      refine ⟨hInv.1, hInv.2.1, ?_⟩
      intro g hg
      dsimp only
      obtain ⟨hcg, hbg⟩ := hInv.2.2 g hg
      have hsame : NGramTrie.GetCount { t with bloom := h :: t.bloom } g = t.GetCount g :=
        GetCount_depends { t with bloom := h :: t.bloom } t rfl rfl g
      rw [hsame, hcg]
      by_cases hgh : g = h
      · subst hgh
        simp only [eq_self_iff_true, if_true, hCh]
        constructor
        · norm_num
        · simp
      · simp only [hgh, if_false]
        refine ⟨trivial, ?_⟩
        show g ∈ h :: t.bloom ↔ _
        rw [List.mem_cons]
        constructor
        · rintro (he | hm)
          · exact absurd he hgh
          · exact hbg.1 hm
        · intro hc
          exact Or.inr (hbg.2 hc)

theorem runInserts_inv (ops : List (List String)) :
    ∀ (t : NGramTrie) (C : List String → ℕ), BloomInv t C →
      BloomInv (runInserts t ops) (fun g => C g + ops.count g) := by
  induction ops with
  | nil =>
      intro t C h
      exact BloomInv_congr h (by simp)
  | cons op rest ih =>
      intro t C h
      have hrec := ih (t.Insert op) _ (Insert_bloom_step t op C h)
      apply BloomInv_congr hrec
      intro g
      by_cases hg : g = op
      · subst hg
        simp [List.count_cons]
        omega
      · have hne : op ≠ g := fun he => hg he.symm
        simp [List.count_cons, hg, hne]

/-- C2: for a bloom-enabled trie (bloom idealized as an exact key set,
realising the claim's no-false-positive hypothesis), after any sequence
of `Insert` calls: the count stored for a non-empty sequence `g` equals
the number of `Insert(g)` calls minus one, floored at zero.  In
particular the count is 0/1/2 after the first/second/third insert, and
never exceeds the number of `Insert(g)` calls. -/
theorem C2_bloom_singleton_suppression (ops : List (List String)) (g : List String)
    (hg : g ≠ []) :
    (runInserts (NewNGramTrieWithBloom true) ops).GetCount g =
        max ((ops.count g : ℤ) - 1) 0 ∧
    (ops.count g = 1 → (runInserts (NewNGramTrieWithBloom true) ops).GetCount g = 0) ∧
    (ops.count g = 2 → (runInserts (NewNGramTrieWithBloom true) ops).GetCount g = 1) ∧
    (ops.count g = 3 → (runInserts (NewNGramTrieWithBloom true) ops).GetCount g = 2) ∧
    (runInserts (NewNGramTrieWithBloom true) ops).GetCount g ≤ (ops.count g : ℤ) := by
  have h := (runInserts_inv ops _ _ BloomInv_init).2.2 g hg
  simp only [Nat.zero_add] at h
  refine ⟨h.1, ?_, ?_, ?_, ?_⟩
  · intro hc; rw [h.1, hc]; rfl
  · intro hc; rw [h.1, hc]; rfl
  · intro hc; rw [h.1, hc]; rfl
  · rw [h.1]
    omega

/-- Witness for C2: two inserts of the same pair leave its count at 1. -/
theorem C2_bloom_singleton_suppression_witness :
    (["a", "b"] : List String) ≠ [] ∧
    (runInserts (NewNGramTrieWithBloom true) [["a", "b"], ["a", "b"]]).GetCount
        ["a", "b"] = 1 := by
  refine ⟨by decide, ?_⟩
  have h := C2_bloom_singleton_suppression [["a", "b"], ["a", "b"]] ["a", "b"] (by decide)
  exact h.2.2.1 (by decide)

/-! ## Claim C3: insert/remove counting without bloom -/

/-- An interleaving step on a trie: one `Insert` or one `Remove` call. -/
inductive TrieOp : Type where
  | ins (tokens : List String)
  | rem (tokens : List String)
deriving Repr, DecidableEq

/-- Apply one operation. -/
def TrieOp.apply (t : NGramTrie) : TrieOp → NGramTrie
  | .ins l => t.Insert l
  | .rem l => t.Remove l

/-- Apply an interleaving of `Insert` and `Remove` calls. -/
def runOps (t : NGramTrie) (ops : List TrieOp) : NGramTrie :=
  ops.foldl TrieOp.apply t

/-- One step of the count recurrence followed by the code: an insert of
`g` adds one, a remove of `g` subtracts one flooring at zero at that
step. -/
def netStep (g : List String) (c : ℤ) : TrieOp → ℤ
  | .ins l => if l = g then c + 1 else c
  | .rem l => if l = g then max (c - 1) 0 else c

/-- The per-step-floored net count of `g` over an interleaving. -/
def netCount (g : List String) (ops : List TrieOp) : ℤ := ops.foldl (netStep g) 0

/-- The number of `Insert(g)` calls in an interleaving. -/
def insCount (g : List String) : List TrieOp → ℕ
  | [] => 0
  | .ins l :: rest => (if l = g then 1 else 0) + insCount g rest
  | .rem _ :: rest => insCount g rest

/-- The number of `Remove(g)` calls in an interleaving. -/
def remCount (g : List String) : List TrieOp → ℕ
  | [] => 0
  | .rem l :: rest => (if l = g then 1 else 0) + remCount g rest
  | .ins _ :: rest => remCount g rest

/-- Invariant tying a bloom-less trie to the per-sequence net count. -/
def NoBloomInv (t : NGramTrie) (F : List String → ℤ) : Prop :=
  TrieWF t ∧ t.useBloom = false ∧
  ∀ g : List String, g ≠ [] → (t.GetCount g = F g ∧ 0 ≤ F g)

theorem NoBloomInv_init : NoBloomInv NewNGramTrie (fun _ => 0) := by
  refine ⟨⟨⟨by simp [NewNGramTrie, NewNGramTrieWithBloom],
      by simp [NewNGramTrie, NewNGramTrieWithBloom]⟩, ?_⟩, rfl, ?_⟩
  · intro q _
    exact nodeCountAt_NewTrieNode q 0
  · intro g hg
    refine ⟨?_, le_rfl⟩
    exact GetCount_none _ g hg (tokenIDs?_empty_table _ rfl g hg)

theorem apply_nobloom_step (t : NGramTrie) (op : TrieOp) (F : List String → ℤ)
    (hInv : NoBloomInv t F) :
    NoBloomInv (TrieOp.apply t op) (fun g => netStep g (F g) op) := by
  cases op with
  | ins l =>
      by_cases hl : l = []
      · subst hl
        have hid : t.Insert [] = t := by simp [NGramTrie.Insert]
        show NoBloomInv (t.Insert []) _
        rw [hid]
        refine ⟨hInv.1, hInv.2.1, ?_⟩
        intro g hg
        dsimp only [netStep]
        have hlg : ¬([] : List String) = g := fun he => hg he.symm
        simp only [hlg, if_false]
        exact hInv.2.2 g hg
      · have hgate : ¬(t.useBloom = true ∧ l ∉ t.bloom) := by
          rintro ⟨hu, _⟩
          rw [hInv.2.1] at hu
          exact Bool.false_ne_true hu
        have hins : t.Insert l = t.insertCore l := by
          simp [NGramTrie.Insert, hl, hgate]
        show NoBloomInv (t.Insert l) _
        rw [hins]
        refine ⟨insertCore_WF t l hInv.1, (insertCore_fields t l).2.trans hInv.2.1, ?_⟩
        intro g hg
        dsimp only [netStep]
        rw [insertCore_getCount t l g hInv.1 hg]
        obtain ⟨hcg, hnn⟩ := hInv.2.2 g hg
        by_cases hgl : l = g
        · subst hgl
          simp only [eq_self_iff_true, if_true]
          exact ⟨by rw [hcg], by omega⟩
        · have hglr : ¬g = l := fun he => hgl he.symm
          simp only [hgl, hglr, if_false]
          exact ⟨by rw [hcg]; ring, hnn⟩
  | rem l =>
      show NoBloomInv (t.Remove l) _
      refine ⟨Remove_WF t l hInv.1, (Remove_fields t l).2.1.trans hInv.2.1, ?_⟩
      intro g hg
      dsimp only [netStep]
      rw [Remove_getCount t l g hInv.1 hg]
      obtain ⟨hcg, hnn⟩ := hInv.2.2 g hg
      by_cases hgl : l = g
      · subst hgl
        simp only [eq_self_iff_true, if_true, true_and]
        rw [hcg]
        by_cases hpos : 0 < F l
        · simp only [hpos, if_true]
          rw [max_eq_left (by omega : (0:ℤ) ≤ F l - 1)]
          exact ⟨rfl, by omega⟩
        · simp only [hpos, if_false]
          have hz : F l = 0 := le_antisymm (by omega) hnn
          rw [hz]
          norm_num
      · have hglr : ¬g = l := fun he => hgl he.symm
        have hz : ¬(g = l ∧ 0 < t.GetCount l) := fun hc => hglr hc.1
        simp only [hgl, hz, if_false]
        exact ⟨by rw [hcg]; ring, hnn⟩

theorem runOps_inv (ops : List TrieOp) :
    ∀ (t : NGramTrie) (F : List String → ℤ), NoBloomInv t F →
      NoBloomInv (runOps t ops) (fun g => ops.foldl (netStep g) (F g)) := by
  induction ops with
  | nil => intro t F h; exact h
  | cons op rest ih =>
      intro t F h
      exact ih (TrieOp.apply t op) _ (apply_nobloom_step t op F h)

/-- The claim of C3 is false as stated: after insert, remove, remove,
insert of the same 1-token sequence the stored count is 1, while the
number of inserts minus the number of removes, floored at 0 only at the
end, is 0.  The flooring happens at each remove, not once at the end. -/
theorem C3_interleaving_counterexample :
    (runOps NewNGramTrie
        [.ins ["a"], .rem ["a"], .rem ["a"], .ins ["a"]]).GetCount ["a"] = 1 ∧
    insCount ["a"] [.ins ["a"], .rem ["a"], .rem ["a"], .ins ["a"]] = 2 ∧
    remCount ["a"] [.ins ["a"], .rem ["a"], .rem ["a"], .ins ["a"]] = 2 ∧
    max ((2 : ℤ) - (2 : ℤ)) 0 = 0 ∧ (1 : ℤ) ≠ 0 := by
  refine ⟨by decide, by decide, by decide, by decide, by decide⟩

/-- C3 (amended): for a trie without bloom, after any interleaving of
`Insert` and `Remove` calls, `GetCount(g)` equals the left fold over the
interleaving that adds one at each `Insert(g)` and subtracts one flooring
at zero at each `Remove(g)` — the floor applies per step, not once at the
end as the claim states. -/
theorem C3_insert_remove_net_count (ops : List TrieOp) (g : List String)
    (hg : g ≠ []) :
    (runOps NewNGramTrie ops).GetCount g = netCount g ops :=
  ((runOps_inv ops NewNGramTrie _ NoBloomInv_init).2.2 g hg).1

/-- Witness for the amended C3 at a concrete interleaving. -/
theorem C3_insert_remove_net_count_witness :
    (["a"] : List String) ≠ [] ∧
    (runOps NewNGramTrie
        [.ins ["a"], .rem ["a"], .rem ["a"], .ins ["a"]]).GetCount ["a"] =
      netCount ["a"] [.ins ["a"], .rem ["a"], .rem ["a"], .ins ["a"]] :=
  ⟨by decide, C3_insert_remove_net_count _ ["a"] (by decide)⟩

/-! ## The trie-based model `NGramModelTrie`

Mirrors the Go struct in `ngram_persistence.go` (second half).  The three
tries have independent interning tables.  The bloom sizing parameters are
dropped with the bloom idealization; a `nil` smoother never reaches the
constructor in the embedded call sites, so the default is applied by the
callers that apply it in Go. -/

structure NGramModelTrie : Type where
  n : ℕ
  ngramTrie : NGramTrie
  contextTrie : NGramTrie
  vocabulary : NGramTrie
  totalTokens : ℤ
  smoother : Smoother
deriving Repr

/-- Go `NewNGramModelTrieWithBloom` (n clamped to 3 when below 1; the
vocabulary trie is always bloom-less). -/
def NewNGramModelTrieWithBloom (n : ℕ) (smoother : Smoother) (useBloom : Bool) :
    NGramModelTrie :=
  { n := if n < 1 then 3 else n
    ngramTrie := NewNGramTrieWithBloom useBloom
    contextTrie := NewNGramTrieWithBloom useBloom
    vocabulary := NewNGramTrieWithBloom false
    totalTokens := 0
    smoother := smoother }

/-- Go `NewNGramModelTrie`: no bloom filter. -/
def NewNGramModelTrie (n : ℕ) (smoother : Smoother) : NGramModelTrie :=
  NewNGramModelTrieWithBloom n smoother false

/-- Go `extractNGrams` (identical in the map and trie models): all
windows of size `n`, plus the whole sequence once when it is shorter
than `n`. -/
def extractNGrams (n : ℕ) (tokens : List String) : List (List String) :=
  if tokens = [] then []
  else
    (List.range (tokens.length + 1 - n)).map (fun i => (tokens.drop i).take n) ++
      (if tokens.length < n then [tokens] else [])

/-- Go `NGramModelTrie.Add`. -/
def NGramModelTrie.Add (m : NGramModelTrie) (tokens : List String) : NGramModelTrie :=
  if tokens = [] then m
  else
    { m with
        totalTokens := m.totalTokens + tokens.length
        vocabulary := tokens.foldl (fun v tok => v.Insert [tok]) m.vocabulary
        ngramTrie := (extractNGrams m.n tokens).foldl NGramTrie.Insert m.ngramTrie
        contextTrie := (extractNGrams m.n tokens).foldl
          (fun c ng => if 1 < ng.length then c.Insert ng.dropLast else c) m.contextTrie }

/-- Go `NGramModelTrie.Remove`. -/
def NGramModelTrie.Remove (m : NGramModelTrie) (tokens : List String) : NGramModelTrie :=
  if tokens = [] then m
  else
    { m with
        totalTokens := max (m.totalTokens - tokens.length) 0
        vocabulary := tokens.foldl (fun v tok => v.Remove [tok]) m.vocabulary
        ngramTrie := (extractNGrams m.n tokens).foldl NGramTrie.Remove m.ngramTrie
        contextTrie := (extractNGrams m.n tokens).foldl
          (fun c ng => if 1 < ng.length then c.Remove ng.dropLast else c) m.contextTrie }

/-- Go `NGramModelTrie.Probability`: build the n-gram, trim it to the
last `n` entries, read the two counts, and smooth.  The Go code computes
`backoffProb = 1.0/vocabSize` and overwrites it with 0 when
`vocabSize == 0`. -/
def NGramModelTrie.Probability (m : NGramModelTrie) (token : String)
    (context : List String) : ℚ :=
  let ng0 := context ++ [token]
  let ng := if m.n < ng0.length then ng0.drop (ng0.length - m.n) else ng0
  let ngramCount := m.ngramTrie.GetCount ng
  let contextCount := if 1 < ng.length then m.contextTrie.GetCount ng.dropLast else 0
  let vocabSize := m.vocabulary.VocabularySize
  let backoffProb := if vocabSize = 0 then 0 else 1 / (vocabSize : ℚ)
  Smoother.Smooth m.smoother ngramCount contextCount backoffProb vocabSize

/-- The per-position probabilities scored by the `CrossEntropy` loop
(both models share this loop shape): position `i` is scored against the
context `tokens[max(0, i-n+1) .. i]`. -/
def positionProbs (prob : String → List String → ℚ) (n : ℕ) (tokens : List String) :
    List ℚ :=
  (List.range tokens.length).map fun i =>
    prob (tokens.getD i "") ((tokens.take i).drop (i + 1 - n))

/-- The accumulation step of Go `CrossEntropy`: sum `log₂ p` over the
positions with positive probability, divide by their number (0 when no
position scored), and negate.  The Go base-2 logarithm is idealized as
`Real.logb 2`. -/
noncomputable def crossEntropyOfProbs (probs : List ℚ) : ℝ :=
  let scored := probs.filter (fun p => 0 < p)
  if scored = [] then 0
  else -(scored.map (fun p => Real.logb 2 (p : ℝ))).sum / scored.length

/-- Go `NGramModelTrie.CrossEntropy`. -/
noncomputable def NGramModelTrie.CrossEntropy (m : NGramModelTrie)
    (tokens : List String) : ℝ :=
  if tokens = [] then 0
  else crossEntropyOfProbs (positionProbs m.Probability m.n tokens)

/-- Go `NGramModelTrie.Perplexity`: `2^CrossEntropy`. -/
noncomputable def NGramModelTrie.Perplexity (m : NGramModelTrie)
    (tokens : List String) : ℝ :=
  (2 : ℝ) ^ (m.CrossEntropy tokens)

/-- Go `ModelStats`. -/
structure ModelStats : Type where
  N : ℕ
  VocabularySize : ℕ
  NGramCount : ℤ
  TotalTokens : ℤ
  SmootherName : String
deriving Repr, DecidableEq

/-- Go `NGramModelTrie.Stats`. -/
def NGramModelTrie.Stats (m : NGramModelTrie) : ModelStats :=
  { N := m.n
    VocabularySize := m.vocabulary.VocabularySize
    NGramCount := m.ngramTrie.TotalNGrams
    TotalTokens := m.totalTokens
    SmootherName := m.smoother.Name }

/-! ## The map-based model `NGramModel`

Mirrors the Go struct of `part_018` (package `service`): counts are keyed
by the space-joined n-gram string `ngram.NGram.String()`. -/

/-- Go `ngram.NGram.String()`: tokens joined by single spaces. -/
def ngramString : List String → String
  | [] => ""
  | [t] => t
  | t :: rest => t ++ " " ++ ngramString rest

/-- Read a Go `map[string]int64` with its zero default. -/
def mapGet (l : List (String × ℤ)) (k : String) : ℤ :=
  match l with
  | [] => 0
  | (k2, v) :: rest => if k2 = k then v else mapGet rest k

/-- Go `m[k]++` on a `map[string]int64`: increment the binding, creating
it at 1 if absent. -/
def mapIncr (l : List (String × ℤ)) (k : String) : List (String × ℤ) :=
  match l with
  | [] => [(k, 1)]
  | (k2, v) :: rest => if k2 = k then (k2, v + 1) :: rest else (k2, v) :: mapIncr rest k

structure NGramModel : Type where
  n : ℕ
  vocabulary : List (String × ℤ)
  ngramCounts : List (String × ℤ)
  contextCounts : List (String × ℤ)
  totalTokens : ℤ
  smoother : Smoother
deriving Repr

/-- Go `NewNGramModel` (n clamped to 3 when below 1). -/
def NewNGramModel (n : ℕ) (smoother : Smoother) : NGramModel :=
  { n := if n < 1 then 3 else n
    vocabulary := []
    ngramCounts := []
    contextCounts := []
    totalTokens := 0
    smoother := smoother }

/-- Go `NGramModel.Add`. -/
def NGramModel.Add (m : NGramModel) (tokens : List String) : NGramModel :=
  { m with
      vocabulary := tokens.foldl mapIncr m.vocabulary
      totalTokens := m.totalTokens + tokens.length
      ngramCounts := (extractNGrams m.n tokens).foldl
        (fun acc ng => mapIncr acc (ngramString ng)) m.ngramCounts
      contextCounts := (extractNGrams m.n tokens).foldl
        (fun acc ng => if 1 < ng.length then mapIncr acc (ngramString ng.dropLast) else acc)
        m.contextCounts }

/-- Go `NGramModel.Probability`.  Note the asymmetry with the trie model:
the context count is looked up under the string of the context argument
as passed in, not under the trimmed n-gram's prefix. -/
def NGramModel.Probability (m : NGramModel) (token : String)
    (context : List String) : ℚ :=
  let ng0 := context ++ [token]
  let ng := if m.n < ng0.length then ng0.drop (ng0.length - m.n) else ng0
  let ngramCount := mapGet m.ngramCounts (ngramString ng)
  let contextCount := mapGet m.contextCounts (ngramString context)
  let backoffProb :=
    if m.vocabulary.length = 0 then 0 else 1 / (m.vocabulary.length : ℚ)
  Smoother.Smooth m.smoother ngramCount contextCount backoffProb m.vocabulary.length

/-- Go `NGramModel.CrossEntropy`. -/
noncomputable def NGramModel.CrossEntropy (m : NGramModel) (tokens : List String) : ℝ :=
  if tokens = [] then 0
  else crossEntropyOfProbs (positionProbs m.Probability m.n tokens)

/-- Go `NGramModel.Perplexity`. -/
noncomputable def NGramModel.Perplexity (m : NGramModel) (tokens : List String) : ℝ :=
  (2 : ℝ) ^ (m.CrossEntropy tokens)

/-- Go `NGramModel.Stats`. -/
def NGramModel.Stats (m : NGramModel) : ModelStats :=
  { N := m.n
    VocabularySize := m.vocabulary.length
    NGramCount := m.ngramCounts.length
    TotalTokens := m.totalTokens
    SmootherName := m.smoother.Name }

/-! ## Claim C5: the smoother range -/

/-- The claim of C5 is false as stated: with `ngram_count = 3`,
`context_count = 1`, `V = 1` and `backoff_prob = 1/V = 1`, Laplace
smoothing returns `(3+1)/(1+1·1) = 2`, outside `(0, 1]`. -/
theorem C5_smoother_range_counterexample :
    Smoother.Smooth (NewAddKSmoother 1) 3 1 1 1 = 2 ∧
    ¬(Smoother.Smooth (NewAddKSmoother 1) 3 1 1 1 ≤ 1) := by
  constructor
  · norm_num [NewAddKSmoother, Smoother.Smooth]
  · norm_num [NewAddKSmoother, Smoother.Smooth]

/-- C5 (amended): for every `ngram_count ≥ 0`, `context_count ≥ 0` and
`V > 0` with `backoff_prob = 1/V`, and additionally
`ngram_count ≤ context_count` (which holds between the n-gram trie and
the context trie in states built by `Add`), both `AddKSmoother.Smooth`
(any `k > 0`, as guaranteed by `NewAddKSmoother`) and
`WittenBellSmoother.Smooth` return a value in `(0, 1]`. -/
theorem C5_smoother_range (k : ℚ) (hk : 0 < k) (ng ctx : ℤ) (V : ℕ)
    (hng : 0 ≤ ng) (hctx : 0 ≤ ctx) (hle : ng ≤ ctx) (hV : 0 < V) :
    (0 < Smoother.Smooth (.addK k) ng ctx (1 / (V : ℚ)) V ∧
      Smoother.Smooth (.addK k) ng ctx (1 / (V : ℚ)) V ≤ 1) ∧
    (0 < Smoother.Smooth .wittenBell ng ctx (1 / (V : ℚ)) V ∧
      Smoother.Smooth .wittenBell ng ctx (1 / (V : ℚ)) V ≤ 1) := by
  have hV1 : (1 : ℚ) ≤ (V : ℚ) := by exact_mod_cast hV
  have hVpos : (0 : ℚ) < (V : ℚ) := by linarith
  by_cases hc0 : ctx = 0
  · subst hc0
    have hbase : (0 : ℚ) < 1 / (V : ℚ) ∧ 1 / (V : ℚ) ≤ 1 := by
      constructor
      · positivity
      · rw [div_le_one hVpos]
        exact hV1
    simp only [Smoother.Smooth, if_pos rfl]
    exact ⟨hbase, hbase⟩
  · have hcpos : (0 : ℚ) < (ctx : ℚ) := by
      have : 0 < ctx := lt_of_le_of_ne hctx (fun he => hc0 he.symm)
      exact_mod_cast this
    have hngQ : (0 : ℚ) ≤ (ng : ℚ) := by exact_mod_cast hng
    have hleQ : (ng : ℚ) ≤ (ctx : ℚ) := by exact_mod_cast hle
    constructor
    · simp only [Smoother.Smooth, hc0, if_false]
      constructor
      · apply div_pos (by linarith)
        nlinarith
      · rw [div_le_one (by nlinarith)]
        nlinarith
    · simp only [Smoother.Smooth, hc0, if_false]
      by_cases hng0 : 0 < ng
      · have hngQ0 : (0 : ℚ) < (ng : ℚ) := by exact_mod_cast hng0
        simp only [hng0, if_true]
        constructor
        · apply mul_pos (div_pos hcpos (by linarith)) (div_pos hngQ0 hcpos)
        · rw [div_mul_div_comm, div_le_one (by nlinarith)]
          nlinarith
      · simp only [hng0, if_false]
        constructor
        · apply mul_pos (div_pos hVpos (by linarith)) (by positivity)
        · rw [div_mul_eq_mul_div, div_le_one (by nlinarith)]
          rw [mul_one_div, div_le_iff₀ hVpos]
          nlinarith

/-- Witness for the amended C5 at `k = 1`, `ngram_count = 1`,
`context_count = 2`, `V = 3`. -/
theorem C5_smoother_range_witness :
    (0 : ℚ) < 1 ∧ (0 : ℤ) ≤ 1 ∧ (0 : ℤ) ≤ 2 ∧ (1 : ℤ) ≤ 2 ∧ 0 < 3 ∧
    (0 < Smoother.Smooth (.addK 1) 1 2 (1 / ((3 : ℕ) : ℚ)) 3 ∧
      Smoother.Smooth (.addK 1) 1 2 (1 / ((3 : ℕ) : ℚ)) 3 ≤ 1) ∧
    (0 < Smoother.Smooth .wittenBell 1 2 (1 / ((3 : ℕ) : ℚ)) 3 ∧
      Smoother.Smooth .wittenBell 1 2 (1 / ((3 : ℕ) : ℚ)) 3 ≤ 1) :=
  ⟨by norm_num, by norm_num, by norm_num, by norm_num, by norm_num,
    C5_smoother_range 1 (by norm_num) 1 2 3 (by norm_num) (by norm_num)
      (by norm_num) (by norm_num)⟩

/-! ## Claim C4: cross-entropy on an empty vocabulary (Go-float-faithful)

The idealized `Smoother.Smooth` above uses the rational convention
`1/0 = 0`; Go's `float64` instead yields `+Inf` for `1.0/0`.  The claim
C4 hinges on exactly this corner, so the functions below re-embed the
probability path with `none` standing for the non-finite `+Inf` produced
by dividing the positive numerator `1.0` by a zero vocabulary size.  In
every branch other than the `contextCount == 0` one the denominators are
positive in reachable states, so only that branch is guarded. -/

def smoothGo (s : Smoother) (ngramCount contextCount : ℤ) (backoffProb : ℚ)
    (V : ℕ) : Option ℚ :=
  if contextCount = 0 then (if V = 0 then none else some (1 / (V : ℚ)))
  else some (Smoother.Smooth s ngramCount contextCount backoffProb V)

/-- Go `NGramModelTrie.Probability` with the faithful division. -/
def NGramModelTrie.ProbabilityGo (m : NGramModelTrie) (token : String)
    (context : List String) : Option ℚ :=
  let ng0 := context ++ [token]
  let ng := if m.n < ng0.length then ng0.drop (ng0.length - m.n) else ng0
  let ngramCount := m.ngramTrie.GetCount ng
  let contextCount := if 1 < ng.length then m.contextTrie.GetCount ng.dropLast else 0
  let vocabSize := m.vocabulary.VocabularySize
  let backoffProb := if vocabSize = 0 then 0 else 1 / (vocabSize : ℚ)
  smoothGo m.smoother ngramCount contextCount backoffProb vocabSize

/-- The position probabilities of the `CrossEntropy` loop, faithful
variant. -/
def goProbs (m : NGramModelTrie) (tokens : List String) : List (Option ℚ) :=
  (List.range tokens.length).map fun i =>
    m.ProbabilityGo (tokens.getD i "") ((tokens.take i).drop (i + 1 - m.n))

/-- The positions Go scores: `prob > 0` is true both for positive finite
probabilities and for `+Inf`. -/
def goScored (probs : List (Option ℚ)) : List (Option ℚ) :=
  probs.filter fun p =>
    match p with
    | none => true
    | some q => decide (0 < q)

/-- Go's `totalLogProb` accumulator: `math.Log2(+Inf) = +Inf`. -/
noncomputable def goLogSum (scored : List (Option ℚ)) : EReal :=
  (scored.map fun p =>
    match p with
    | none => (⊤ : EReal)
    | some q => ((Real.logb 2 (q : ℝ) : ℝ) : EReal)).sum

/-- Go's final `-totalLogProb / float64(count)` under IEEE semantics:
negating and dividing `+Inf` by a positive count gives `-Inf`. -/
noncomputable def goNegDivE (x : EReal) (c : ℕ) : EReal :=
  if x = ⊤ then ⊥
  else if x = ⊥ then ⊤
  else (((-x.toReal) / (c : ℝ) : ℝ) : EReal)

/-- Go `NGramModelTrie.CrossEntropy` with IEEE-faithful division. -/
noncomputable def CrossEntropyGo (m : NGramModelTrie) (tokens : List String) : EReal :=
  if tokens = [] then 0
  else if (goScored (goProbs m tokens)).length = 0 then 0
  else goNegDivE (goLogSum (goScored (goProbs m tokens)))
      (goScored (goProbs m tokens)).length

/-- C4 fails on the code at the failing input of the claim: on a fresh
model (empty vocabulary, AddK smoother) the probability of any token is
`1.0/0 = +Inf`, Go's `math.Log2` maps it to `+Inf`, and the returned
cross-entropy is `-Inf`, which is not `≥ 0`.  The spec itself states
that a zero vocabulary must yield probability 0 and a skipped position,
so the claim reflects the intent and the code diverges from it. -/
theorem C4_cross_entropy_empty_vocab_eval :
    CrossEntropyGo (NewNGramModelTrie 3 (NewAddKSmoother 1)) ["x"] = (⊥ : EReal) ∧
    (⊥ : EReal) < 0 := by
  constructor
  · have hp : goProbs (NewNGramModelTrie 3 (NewAddKSmoother 1)) ["x"] = [none] := by
      decide
    have hs : goScored [none] = [none] := by decide
    have hlen : (goScored (goProbs (NewNGramModelTrie 3 (NewAddKSmoother 1))
        ["x"])).length = 1 := by
      rw [hp, hs]
      rfl
    have hsum : goLogSum [none] = (⊤ : EReal) := by
      simp [goLogSum]
    rw [CrossEntropyGo]
    simp only [hp, hs, hsum]
    norm_num [goNegDivE]
  · exact EReal.bot_lt_zero

/-! ## Claim C6: AnalyzeCode entropy vs CalculateZScore entropy

`AnalyzeCode` scores a snippet with `globalModel.CrossEntropy`;
`CalculateZScore` instead calls `calculateEntropyWithScores`
(`ngram_service.go`), embedded below.  The code's hand-rolled series
`log2` is idealized as `Real.logb 2`. -/

/-- Go `NGramScoreDetail`. -/
structure NGramScoreDetail : Type where
  NGram : List String
  Probability : ℚ
  LogProb : ℝ
  Entropy : ℝ

/-- The capped negative log-probability Go assigns to a window: `-log2 p`
when `p > 0`, and the sentinel 20 when `p = 0`. -/
noncomputable def capLog (p : ℚ) : ℝ :=
  if 0 < p then -(Real.logb 2 (p : ℝ)) else 20

/-- One iteration of the loop of `calculateEntropyWithScores`: the window
`tokens[i : i+n]` split into context and final token, scored by the
model. -/
noncomputable def zscoreWindow (m : NGramModelTrie) (n : ℕ) (tokens : List String)
    (i : ℕ) : NGramScoreDetail :=
  let ngram := (tokens.drop i).take n
  let context := ngram.take (n - 1)
  let token := ngram.getD (n - 1) ""
  let prob := m.Probability token context
  { NGram := ngram, Probability := prob, LogProb := capLog prob, Entropy := capLog prob }

/-- Go `calculateEntropyWithScores`: zero and no scores when the snippet
is shorter than `n`; otherwise one score per window of size exactly `n`,
and the entropy is the sum of the capped log-probabilities divided by the
total token count. -/
noncomputable def calculateEntropyWithScores (tokens : List String)
    (m : NGramModelTrie) (n : ℕ) : ℝ × List NGramScoreDetail :=
  if tokens.length < n then (0, [])
  else
    let scores := (List.range (tokens.length + 1 - n)).map (zscoreWindow m n tokens)
    ((scores.map NGramScoreDetail.LogProb).sum / (tokens.length : ℝ), scores)

/-- The corpus state of the C6 counterexample: the global model of a
bloom-enabled corpus after ingesting the two-token stream `a b` with
`n = 3`. -/
noncomputable def c6model : NGramModelTrie :=
  (NewNGramModelTrieWithBloom 3 (NewAddKSmoother 1) true).Add ["a", "b"]

theorem list_range_map_sum (k : ℕ) (f : ℕ → ℝ) :
    ((List.range k).map f).sum = ∑ i in Finset.range k, f i := by
  induction k with
  | zero => simp
  | succ k ih => rw [List.range_succ, Finset.sum_range_succ]; simp [ih]

/-- The claim of C6 is false at an explicit input: on the corpus above,
for the one-token snippet `a`, `AnalyzeCode` reports the global model's
cross-entropy `-log₂(1/2) = 1`, while `CalculateZScore` reports entropy 0
because the snippet is shorter than `n` and no window is scored. -/
theorem C6_entropy_mismatch_counterexample :
    (calculateEntropyWithScores ["a"] c6model 3).1 = 0 ∧
    c6model.CrossEntropy ["a"] = 1 ∧
    (calculateEntropyWithScores ["a"] c6model 3).1 ≠ c6model.CrossEntropy ["a"] := by
  have h0 : (calculateEntropyWithScores ["a"] c6model 3).1 = 0 := by
    simp [calculateEntropyWithScores]
  have hn : c6model.n = 3 := rfl
  have hsm : c6model.smoother = Smoother.addK 1 := by
    show NewAddKSmoother 1 = _
    norm_num [NewAddKSmoother]
  have hg : c6model.ngramTrie.GetCount ["a"] = 0 := by decide
  have hv : c6model.vocabulary.VocabularySize = 2 := by decide
  have h1 : c6model.Probability "a" [] = 1/2 := by
    simp only [NGramModelTrie.Probability]
    norm_num [hn, hg, hv, hsm, Smoother.Smooth]
  have hpp : positionProbs c6model.Probability c6model.n ["a"] = [1/2] := by
    have hr : List.range 1 = [0] := by decide
    simp [positionProbs, hr]
    simpa using h1
  have hlog : Real.logb 2 ((1:ℝ)/2) = -1 := by
    rw [one_div, Real.logb_inv, Real.logb_self_eq_one]
    norm_num
  have hce : c6model.CrossEntropy ["a"] = 1 := by
    rw [NGramModelTrie.CrossEntropy]
    simp only [hpp, if_false, List.cons_ne_self]
    have hfil : (([(1/2 : ℚ)]).filter fun p => 0 < p) = [1/2] := by
      norm_num [List.filter]
    simp only [crossEntropyOfProbs, hfil]
    have hc : (((1 : ℚ)/2 : ℚ) : ℝ) = 1/2 := by norm_num
    simp only [List.map_cons, List.map_nil, List.sum_cons, List.sum_nil, hc, hlog,
      List.length_cons, List.length_nil]
    norm_num
    linarith [hlog]
  refine ⟨h0, hce, ?_⟩
  rw [h0, hce]
  norm_num

/-- C6 (amended): the entropy field of `CalculateZScore` is the sum over
the windows of size exactly `n` of the capped negative log-probability,
divided by the total token count (not the scored-window count, and with
no position-skipping); and each emitted per-n-gram score carries
`LogProb = -log₂(probability)` capped at 20 for zero probability, with
`Entropy = LogProb`.  This differs in general from the entropy reported
by `AnalyzeCode` (see the counterexample). -/
theorem C6_zscore_entropy_formula (m : NGramModelTrie) (n : ℕ) (tokens : List String)
    (hlen : n ≤ tokens.length) :
    (calculateEntropyWithScores tokens m n).1 =
      (∑ i in Finset.range (tokens.length + 1 - n),
        capLog (m.Probability (((tokens.drop i).take n).getD (n - 1) "")
          (((tokens.drop i).take n).take (n - 1)))) / (tokens.length : ℝ) ∧
    ∀ d ∈ (calculateEntropyWithScores tokens m n).2,
      d.LogProb = capLog d.Probability ∧ d.Entropy = d.LogProb := by
  have hnl : ¬tokens.length < n := not_lt.mpr hlen
  constructor
  · simp only [calculateEntropyWithScores, hnl, if_false, List.map_map]
    rw [list_range_map_sum]
    rfl
  · intro d hd
    simp only [calculateEntropyWithScores, hnl, if_false, List.mem_map] at hd
    obtain ⟨i, _, rfl⟩ := hd
    exact ⟨rfl, rfl⟩

/-- Witness for the amended C6 on a three-token snippet with `n = 3`. -/
theorem C6_zscore_entropy_formula_witness :
    3 ≤ (["a", "b", "c"] : List String).length ∧
    ((calculateEntropyWithScores ["a", "b", "c"] c6model 3).1 =
      (∑ i in Finset.range ((["a", "b", "c"] : List String).length + 1 - 3),
        capLog (c6model.Probability (((["a", "b", "c"].drop i).take 3).getD (3 - 1) "")
          (((["a", "b", "c"].drop i).take 3).take (3 - 1)))) /
        ((["a", "b", "c"] : List String).length : ℝ) ∧
    ∀ d ∈ (calculateEntropyWithScores ["a", "b", "c"] c6model 3).2,
      d.LogProb = capLog d.Probability ∧ d.Entropy = d.LogProb) :=
  ⟨by norm_num, C6_zscore_entropy_formula c6model 3 ["a", "b", "c"] (by norm_num)⟩

/-! ## Claim C10: string machinery for map-model keys

The map-based model keys its counts by space-joined n-gram strings.  The
join is injective on lists of non-empty tokens that contain no space
character, which is the token constraint of the claim. -/

/-- The token constraint of claim C10: non-empty and space-free. -/
def validTok (t : String) : Prop := t ≠ "" ∧ (' ') ∉ t.data

instance : DecidablePred validTok := fun t => by
  unfold validTok
  infer_instance

theorem ngramString_data_cons (t : String) (u : String) (rest : List String) :
    (ngramString (t :: u :: rest)).data =
      t.data ++ ' ' :: (ngramString (u :: rest)).data := by
  show (t ++ " " ++ ngramString (u :: rest)).data = _
  have hs : (" " : String).data = [' '] := rfl
  rw [String.data_append, String.data_append, hs, List.append_assoc]
  rfl

theorem ngramString_ne_empty (t : String) (rest : List String) (ht : validTok t) :
    ngramString (t :: rest) ≠ "" := by
  intro he
  cases rest with
  | nil => exact ht.1 he
  | cons u rest2 =>
      have hd := congrArg String.data he
      rw [ngramString_data_cons] at hd
      have : t.data ++ ' ' :: (ngramString (u :: rest2)).data = [] := hd
      simp at this

/-- Splitting a space-separated concatenation at the first space is
unambiguous when the heads are space-free. -/
theorem space_split (a : List Char) :
    ∀ (b x y : List Char), (' ') ∉ a → (' ') ∉ b →
      a ++ ' ' :: x = b ++ ' ' :: y → a = b ∧ x = y := by
  induction a with
  | nil =>
      intro b x y _ hb h
      cases b with
      | nil => simpa using h
      | cons c b2 =>
          simp only [List.nil_append, List.cons_append, List.cons.injEq] at h
          exfalso
          apply hb
          rw [← h.1]
          simp
  | cons c a2 ih =>
      intro b x y ha hb h
      cases b with
      | nil =>
          simp only [List.cons_append, List.nil_append, List.cons.injEq] at h
          exfalso
          apply ha
          rw [h.1]
          simp
      | cons d b2 =>
          simp only [List.cons_append, List.cons.injEq] at h
          have ha2 : (' ') ∉ a2 := fun hm => ha (List.mem_cons_of_mem _ hm)
          have hb2 : (' ') ∉ b2 := fun hm => hb (List.mem_cons_of_mem _ hm)
          obtain ⟨h1, h2⟩ := ih b2 x y ha2 hb2 h.2
          exact ⟨by rw [h.1, h1], h2⟩

theorem ngramString_inj :
    ∀ (g h : List String), (∀ t ∈ g, validTok t) → (∀ t ∈ h, validTok t) →
      ngramString g = ngramString h → g = h := by
  intro g
  induction g with
  | nil =>
      intro h _ hh he
      cases h with
      | nil => rfl
      | cons u rest =>
          exact absurd he.symm (ngramString_ne_empty u rest (hh u (by simp)))
  | cons t grest ih =>
      intro h hg hh he
      cases h with
      | nil => exact absurd he (ngramString_ne_empty t grest (hg t (by simp)))
      | cons u hrest =>
          have hvt : validTok t := hg t (by simp)
          have hvu : validTok u := hh u (by simp)
          cases grest with
          | nil =>
              cases hrest with
              | nil =>
                  have : t = u := he
                  rw [this]
              | cons w hrest2 =>
                  exfalso
                  have hd := congrArg String.data he
                  rw [ngramString_data_cons] at hd
                  have : (' ') ∈ t.data := by
                    show (' ') ∈ (ngramString [t]).data
                    rw [hd]
                    simp
                  exact hvt.2 this
          | cons v grest2 =>
              cases hrest with
              | nil =>
                  exfalso
                  have hd := congrArg String.data he
                  rw [ngramString_data_cons] at hd
                  have : (' ') ∈ u.data := by
                    show (' ') ∈ (ngramString [u]).data
                    rw [← hd]
                    simp
                  exact hvu.2 this
              | cons w hrest2 =>
                  have hd := congrArg String.data he
                  rw [ngramString_data_cons, ngramString_data_cons] at hd
                  obtain ⟨h1, h2⟩ := space_split t.data u.data _ _ hvt.2 hvu.2 hd
                  have ht : t = u := String.ext h1
                  have hrest : (v :: grest2) = (w :: hrest2) := by
                    apply ih (w :: hrest2) (fun x hx => hg x (List.mem_cons_of_mem _ hx))
                      (fun x hx => hh x (List.mem_cons_of_mem _ hx))
                    exact String.ext h2
                  rw [ht, hrest]

/-! ## Claim C10: count characterizations of the two models

An `Add`-only history of a bloom-less trie stores, for every non-empty
sequence `g`, exactly the number of times `g` was inserted; the map model
stores, under the joined key, the number of insertions of that key. -/

theorem foldl_netStep_ins (g : List String) (l : List (List String)) :
    ∀ c : ℤ, (l.map TrieOp.ins).foldl (netStep g) c = c + l.count g := by
  induction l with
  | nil => intro c; simp
  | cons x rest ih =>
      intro c
      simp only [List.map_cons, List.foldl_cons, netStep]
      rw [ih]
      by_cases hx : x = g
      · subst hx
        simp only [if_pos rfl]
        have hc : (x :: rest).count x = rest.count x + 1 := by
          simp [List.count_cons]
        rw [hc]
        push_cast
        ring_nf
      · simp only [if_neg hx]
        have hc : (x :: rest).count g = rest.count g := by
          simp [List.count_cons, Ne.symm hx]
        rw [hc]

theorem runOps_map_ins (l : List (List String)) (t : NGramTrie) :
    runOps t (l.map .ins) = l.foldl NGramTrie.Insert t := by
  unfold runOps
  rw [List.foldl_map]
  rfl

theorem trie_fold_count (inserts : List (List String)) (g : List String)
    (hg : g ≠ []) :
    (inserts.foldl NGramTrie.Insert NewNGramTrie).GetCount g = inserts.count g := by
  have h := ((runOps_inv (inserts.map .ins) NewNGramTrie _ NoBloomInv_init).2.2 g hg).1
  rw [runOps_map_ins] at h
  rw [h]
  show (inserts.map TrieOp.ins).foldl (netStep g) 0 = _
  rw [foldl_netStep_ins]
  ring

theorem mapGet_mapIncr (l : List (String × ℤ)) (k q : String) :
    mapGet (mapIncr l k) q = mapGet l q + (if k = q then 1 else 0) := by
  induction l with
  | nil =>
      show mapGet [(k, 1)] q = mapGet [] q + _
      by_cases h : k = q
      · simp [mapGet, h]
      · simp [mapGet, h]
  | cons p rest ih =>
      obtain ⟨k2, v⟩ := p
      show mapGet (if k2 = k then (k2, v + 1) :: rest else (k2, v) :: mapIncr rest k) q = _
      by_cases h2 : k2 = k
      · subst h2
        simp only [if_pos rfl]
        by_cases hq : k2 = q
        · subst hq
          simp [mapGet]
        · simp [mapGet, hq]
      · simp only [if_neg h2]
        by_cases hq : k2 = q
        · subst hq
          have hkq : ¬k = k2 := fun he => h2 he.symm
          simp [mapGet, hkq]
        · simp only [mapGet, if_neg hq]
          exact ih

theorem mapGet_foldl_incr (keys : List String) (q : String) :
    ∀ l : List (String × ℤ),
      mapGet (keys.foldl mapIncr l) q = mapGet l q + keys.count q := by
  induction keys with
  | nil => intro l; simp
  | cons k rest ih =>
      intro l
      simp only [List.foldl_cons]
      rw [ih, mapGet_mapIncr]
      by_cases h : k = q
      · subst h
        have hc : (k :: rest).count k = rest.count k + 1 := by simp [List.count_cons]
        rw [hc]
        push_cast
        simp only [if_true]
        ring
      · simp only [if_neg h]
        have hc : (k :: rest).count q = rest.count q := by
          simp [List.count_cons, Ne.symm h]
        rw [hc]
        ring

theorem count_map_of_inj {α β : Type} [BEq α] [LawfulBEq α] [BEq β] [LawfulBEq β]
    (f : α → β) (g : α) :
    ∀ l : List α, (∀ x ∈ l, f x = f g → x = g) →
      (l.map f).count (f g) = l.count g := by
  intro l
  induction l with
  | nil => intro _; rfl
  | cons x rest ih =>
      intro hinj
      have hrest := ih (fun y hy => hinj y (List.mem_cons_of_mem _ hy))
      by_cases hx : x = g
      · subst hx
        have h1 : (x :: rest).count x = rest.count x + 1 := by simp [List.count_cons]
        have h2 : (f x :: rest.map f).count (f x) = (rest.map f).count (f x) + 1 := by
          simp [List.count_cons]
        simp only [List.map_cons]
        rw [h1, h2, hrest]
      · have hfx : f x ≠ f g := fun he => hx (hinj x (by simp) he)
        have h1 : (x :: rest).count g = rest.count g := by
          simp [List.count_cons, Ne.symm hx]
        have h2 : (f x :: rest.map f).count (f g) = (rest.map f).count (f g) := by
          simp [List.count_cons, Ne.symm hfx]
        simp only [List.map_cons]
        rw [h1, h2, hrest]

/-- The shape shared by the context folds of both models: step only on
n-grams longer than one token, with the step applied to the dropped-last
prefix. -/
theorem foldl_ite_filterMap {σ α β : Type} (P : α → Prop) [DecidablePred P]
    (f : α → β) (step : σ → β → σ) :
    ∀ (l : List α) (c : σ),
      l.foldl (fun c ng => if P ng then step c (f ng) else c) c =
        (l.filterMap (fun ng => if P ng then some (f ng) else none)).foldl step c := by
  intro l
  induction l with
  | nil => intro c; rfl
  | cons x rest ih =>
      intro c
      by_cases h : P x
      · simp only [List.foldl_cons, if_pos h]
        rw [ih]
        have : (List.filterMap (fun ng => if P ng then some (f ng) else none) (x :: rest)) =
            f x :: List.filterMap (fun ng => if P ng then some (f ng) else none) rest := by
          rw [List.filterMap_cons]
          simp [h]
        rw [this]
        rfl
      · simp only [List.foldl_cons, if_neg h]
        rw [ih]
        have : (List.filterMap (fun ng => if P ng then some (f ng) else none) (x :: rest)) =
            List.filterMap (fun ng => if P ng then some (f ng) else none) rest := by
          rw [List.filterMap_cons]
          simp [h]
        rw [this]

/-- The contexts inserted for a list of extracted n-grams: the
dropped-last prefixes of those longer than one token. -/
def ctxList (l : List (List String)) : List (List String) :=
  l.filterMap (fun ng => if 1 < ng.length then some ng.dropLast else none)

/-! ## Claim C10: decomposing `Add` folds into per-trie insert folds -/

theorem AddTrie_n (M : NGramModelTrie) (x : List String) : (M.Add x).n = M.n := by
  unfold NGramModelTrie.Add
  split
  · rfl
  · rfl

theorem AddTrie_smoother (M : NGramModelTrie) (x : List String) :
    (M.Add x).smoother = M.smoother := by
  unfold NGramModelTrie.Add
  split
  · rfl
  · rfl

theorem AddTrie_ngramTrie (M : NGramModelTrie) (x : List String) :
    (M.Add x).ngramTrie = (extractNGrams M.n x).foldl NGramTrie.Insert M.ngramTrie := by
  unfold NGramModelTrie.Add
  split
  · rename_i h
    subst h
    simp [extractNGrams]
  · rfl

theorem AddTrie_contextTrie (M : NGramModelTrie) (x : List String) :
    (M.Add x).contextTrie =
      (ctxList (extractNGrams M.n x)).foldl NGramTrie.Insert M.contextTrie := by
  unfold NGramModelTrie.Add
  split
  · rename_i h
    subst h
    simp [extractNGrams, ctxList]
  · show (extractNGrams M.n x).foldl
        (fun c ng => if 1 < ng.length then c.Insert ng.dropLast else c) M.contextTrie = _
    unfold ctxList
    exact foldl_ite_filterMap (fun ng => 1 < ng.length) List.dropLast NGramTrie.Insert
      (extractNGrams M.n x) M.contextTrie

theorem AddTrie_vocabulary (M : NGramModelTrie) (x : List String) :
    (M.Add x).vocabulary = x.foldl (fun v tok => v.Insert [tok]) M.vocabulary := by
  unfold NGramModelTrie.Add
  split
  · rename_i h
    subst h
    rfl
  · rfl

theorem ctxList_append (a b : List (List String)) :
    ctxList (a ++ b) = ctxList a ++ ctxList b := by
  unfold ctxList
  rw [List.filterMap_append]

theorem addTrie_fold (adds : List (List String)) :
    ∀ M : NGramModelTrie,
      (adds.foldl NGramModelTrie.Add M).n = M.n ∧
      (adds.foldl NGramModelTrie.Add M).smoother = M.smoother ∧
      (adds.foldl NGramModelTrie.Add M).ngramTrie =
        (adds.flatMap (extractNGrams M.n)).foldl NGramTrie.Insert M.ngramTrie ∧
      (adds.foldl NGramModelTrie.Add M).contextTrie =
        (ctxList (adds.flatMap (extractNGrams M.n))).foldl NGramTrie.Insert
          M.contextTrie ∧
      (adds.foldl NGramModelTrie.Add M).vocabulary =
        adds.flatten.foldl (fun v tok => v.Insert [tok]) M.vocabulary := by
  induction adds with
  | nil => intro M; exact ⟨rfl, rfl, rfl, rfl, rfl⟩
  | cons x rest ih =>
      intro M
      obtain ⟨hn, hs, hng, hctx, hv⟩ := ih (M.Add x)
      rw [AddTrie_n] at hn hng hctx
      simp only [List.foldl_cons]
      refine ⟨hn, ?_, ?_, ?_, ?_⟩
      · rw [hs, AddTrie_smoother]
      · rw [hng, AddTrie_ngramTrie, List.flatMap_cons, List.foldl_append]
      · rw [hctx, AddTrie_contextTrie, List.flatMap_cons, ctxList_append,
          List.foldl_append]
      · rw [hv, AddTrie_vocabulary, List.flatten_cons, List.foldl_append]

theorem AddMap_ngramCounts (m : NGramModel) (x : List String) :
    (m.Add x).ngramCounts =
      ((extractNGrams m.n x).map ngramString).foldl mapIncr m.ngramCounts := by
  show (extractNGrams m.n x).foldl (fun acc ng => mapIncr acc (ngramString ng))
      m.ngramCounts = _
  rw [List.foldl_map]

theorem AddMap_contextCounts (m : NGramModel) (x : List String) :
    (m.Add x).contextCounts =
      ((ctxList (extractNGrams m.n x)).map ngramString).foldl mapIncr
        m.contextCounts := by
  show (extractNGrams m.n x).foldl
      (fun acc ng => if 1 < ng.length then mapIncr acc (ngramString ng.dropLast) else acc)
      m.contextCounts = _
  rw [List.foldl_map]
  unfold ctxList
  have h := foldl_ite_filterMap (fun ng : List String => 1 < ng.length)
    (fun ng => ngramString ng.dropLast) mapIncr (extractNGrams m.n x) m.contextCounts
  rw [h]
  have h2 : List.filterMap
      (fun ng : List String => if 1 < ng.length then some (ngramString ng.dropLast) else none)
      (extractNGrams m.n x) =
      List.map ngramString (List.filterMap
        (fun ng : List String => if 1 < ng.length then some ng.dropLast else none)
        (extractNGrams m.n x)) := by
    rw [List.map_filterMap]
    apply List.filterMap_congr
    intro ng _
    by_cases hng : 1 < ng.length
    · simp [hng]
    · simp [hng]
  rw [h2]
  rw [List.foldl_map]

theorem addMap_fold (adds : List (List String)) :
    ∀ m : NGramModel,
      (adds.foldl NGramModel.Add m).n = m.n ∧
      (adds.foldl NGramModel.Add m).smoother = m.smoother ∧
      (adds.foldl NGramModel.Add m).ngramCounts =
        ((adds.flatMap (extractNGrams m.n)).map ngramString).foldl mapIncr
          m.ngramCounts ∧
      (adds.foldl NGramModel.Add m).contextCounts =
        ((ctxList (adds.flatMap (extractNGrams m.n))).map ngramString).foldl mapIncr
          m.contextCounts ∧
      (adds.foldl NGramModel.Add m).vocabulary =
        adds.flatten.foldl mapIncr m.vocabulary := by
  induction adds with
  | nil => intro m; exact ⟨rfl, rfl, rfl, rfl, rfl⟩
  | cons x rest ih =>
      intro m
      obtain ⟨hn, hs, hng, hctx, hv⟩ := ih (m.Add x)
      have hnx : (m.Add x).n = m.n := rfl
      rw [hnx] at hn hng hctx
      simp only [List.foldl_cons]
      refine ⟨hn, hs, ?_, ?_, ?_⟩
      · rw [hng, AddMap_ngramCounts, List.flatMap_cons, List.map_append,
          List.foldl_append]
      · rw [hctx, AddMap_contextCounts, List.flatMap_cons, ctxList_append,
          List.map_append, List.foldl_append]
      · rw [hv]
        have hvx : (m.Add x).vocabulary = x.foldl mapIncr m.vocabulary := rfl
        rw [hvx, List.flatten_cons, List.foldl_append]

/-! ## Claim C10: the two vocabularies intern the same key list -/

theorem mapIncr_keys (l : List (String × ℤ)) (k : String) :
    (mapIncr l k).map Prod.fst =
      if k ∈ l.map Prod.fst then l.map Prod.fst else l.map Prod.fst ++ [k] := by
  induction l with
  | nil => simp [mapIncr]
  | cons p rest ih =>
      obtain ⟨k2, v⟩ := p
      show (if k2 = k then (k2, v + 1) :: rest
        else (k2, v) :: mapIncr rest k).map Prod.fst = _
      by_cases h : k2 = k
      · subst h
        simp
      · simp only [if_neg h, List.map_cons]
        rw [ih]
        by_cases hm : k ∈ rest.map Prod.fst
        · have hc : k ∈ k2 :: rest.map Prod.fst := List.mem_cons_of_mem _ hm
          rw [if_pos hm, if_pos hc]
        · have hc : k ∉ k2 :: rest.map Prod.fst := by
            rw [List.mem_cons]
            rintro (h1 | h2)
            · exact h h1.symm
            · exact hm h2
          rw [if_neg hm, if_neg hc, List.cons_append]

theorem Insert_unigram_keys (v : NGramTrie) (hb : v.useBloom = false) (tok : String) :
    (v.Insert [tok]).tokenToID.map Prod.fst =
      (if tok ∈ v.tokenToID.map Prod.fst then v.tokenToID.map Prod.fst
       else v.tokenToID.map Prod.fst ++ [tok]) ∧
    (v.Insert [tok]).useBloom = false := by
  have hne : ([tok] : List String) ≠ [] := by simp
  have hgate : ¬(v.useBloom = true ∧ [tok] ∉ v.bloom) := by
    rintro ⟨hu, _⟩
    rw [hb] at hu
    exact Bool.false_ne_true hu
  have hins : v.Insert [tok] = v.insertCore [tok] := by
    simp [NGramTrie.Insert, hne, hgate]
  rw [hins]
  refine ⟨?_, (insertCore_fields v [tok]).2.trans hb⟩
  have h1 : (v.insertCore [tok]).tokenToID = (v.internToken tok).2.tokenToID := rfl
  cases hl : lookupID tok v.tokenToID with
  | some i =>
      have h2 : (v.internToken tok).2 = v := by
        unfold NGramTrie.internToken
        rw [hl]
      have hmem : tok ∈ v.tokenToID.map Prod.fst := by
        by_contra hno
        have hnone : lookupID tok v.tokenToID = none := by
          apply (lookupID_none tok v.tokenToID).2
          intro p hp he
          exact hno (by rw [← he]; exact List.mem_map_of_mem _ hp)
        rw [hl] at hnone
        exact Option.noConfusion hnone
      rw [h1, h2, if_pos hmem]
  | none =>
      have h2 : (v.internToken tok).2.tokenToID = v.tokenToID ++ [(tok, v.nextID)] := by
        unfold NGramTrie.internToken
        rw [hl]
      have hno : tok ∉ v.tokenToID.map Prod.fst := by
        intro hmem
        obtain ⟨p, hp, hfst⟩ := List.mem_map.1 hmem
        exact (lookupID_none tok v.tokenToID).1 hl p hp hfst
      rw [h1, h2, if_neg hno, List.map_append]
      rfl

theorem vocab_fold_keys (tokens : List String) :
    ∀ (v : NGramTrie) (l : List (String × ℤ)),
      v.useBloom = false → v.tokenToID.map Prod.fst = l.map Prod.fst →
      (tokens.foldl (fun v tok => v.Insert [tok]) v).tokenToID.map Prod.fst =
        ((tokens.foldl mapIncr l).map Prod.fst) ∧
      (tokens.foldl (fun v tok => v.Insert [tok]) v).useBloom = false := by
  induction tokens with
  | nil => intro v l hb hkeys; exact ⟨hkeys, hb⟩
  | cons t rest ih =>
      intro v l hb hkeys
      simp only [List.foldl_cons]
      apply ih
      · exact (Insert_unigram_keys v hb t).2
      · rw [(Insert_unigram_keys v hb t).1, mapIncr_keys, hkeys]

/-! ## Claim C10: validity transport through extraction -/

theorem extractNGrams_sub (n : ℕ) (tokens : List String) (ng : List String)
    (h : ng ∈ extractNGrams n tokens) : ∀ t ∈ ng, t ∈ tokens := by
  unfold extractNGrams at h
  by_cases he : tokens = []
  · rw [if_pos he] at h
    exact absurd h (List.not_mem_nil ng)
  · rw [if_neg he] at h
    rcases List.mem_append.1 h with h1 | h2
    · obtain ⟨i, _, heq⟩ := List.mem_map.1 h1
      intro t ht
      rw [← heq] at ht
      exact List.drop_subset i tokens (List.take_subset n (tokens.drop i) ht)
    · by_cases hlen : tokens.length < n
      · rw [if_pos hlen] at h2
        have : ng = tokens := by
          rcases List.mem_cons.1 h2 with h3 | h3
          · exact h3
          · exact absurd h3 (List.not_mem_nil ng)
        rw [this]
        intro t ht
        exact ht
      · rw [if_neg hlen] at h2
        exact absurd h2 (List.not_mem_nil ng)

theorem ctxList_mem (l : List (List String)) (p : List String) (h : p ∈ ctxList l) :
    ∃ ng ∈ l, 1 < ng.length ∧ p = ng.dropLast := by
  unfold ctxList at h
  obtain ⟨ng, hng, hp⟩ := List.mem_filterMap.1 h
  by_cases hlen : 1 < ng.length
  · rw [if_pos hlen] at hp
    exact ⟨ng, hng, hlen, (Option.some.inj hp).symm⟩
  · rw [if_neg hlen] at hp
    exact Option.noConfusion hp

/-! ## Claim C10: pointwise probability agreement -/

theorem mapProb_fit (m : NGramModel) (token : String) (context : List String)
    (hfit : context.length + 1 ≤ m.n) :
    m.Probability token context =
      Smoother.Smooth m.smoother
        (mapGet m.ngramCounts (ngramString (context ++ [token])))
        (mapGet m.contextCounts (ngramString context))
        (if m.vocabulary.length = 0 then 0 else 1 / (m.vocabulary.length : ℚ))
        m.vocabulary.length := by
  unfold NGramModel.Probability
  have h : ¬(m.n < (context ++ [token]).length) := by
    rw [List.length_append, List.length_cons, List.length_nil]
    omega
  simp only [if_neg h]

theorem trieProb_fit (M : NGramModelTrie) (token : String) (context : List String)
    (hfit : context.length + 1 ≤ M.n) :
    M.Probability token context =
      Smoother.Smooth M.smoother (M.ngramTrie.GetCount (context ++ [token]))
        (if 1 < (context ++ [token]).length then
          M.contextTrie.GetCount (context ++ [token]).dropLast else 0)
        (if M.vocabulary.VocabularySize = 0 then 0
         else 1 / (M.vocabulary.VocabularySize : ℚ))
        M.vocabulary.VocabularySize := by
  unfold NGramModelTrie.Probability
  have h : ¬(M.n < (context ++ [token]).length) := by
    rw [List.length_append, List.length_cons, List.length_nil]
    omega
  simp only [if_neg h]

theorem prob_agree (n : ℕ) (s : Smoother) (adds : List (List String))
    (hadds : ∀ str ∈ adds, ∀ t ∈ str, validTok t)
    (token : String) (context : List String)
    (htok : validTok token) (hctx : ∀ t ∈ context, validTok t)
    (hfit : context.length + 1 ≤ (if n < 1 then 3 else n)) :
    (adds.foldl NGramModel.Add (NewNGramModel n s)).Probability token context =
      (adds.foldl NGramModelTrie.Add (NewNGramModelTrie n s)).Probability token
        context := by
  obtain ⟨hTn, hTs, hTng, hTctx, hTv⟩ := addTrie_fold adds (NewNGramModelTrie n s)
  obtain ⟨hMn, hMs, hMng, hMctx, hMv⟩ := addMap_fold adds (NewNGramModel n s)
  have hNm : (NewNGramModel n s).n = (if n < 1 then 3 else n) := rfl
  have hNT : (NewNGramModelTrie n s).n = (if n < 1 then 3 else n) := rfl
  rw [hNm] at hMn hMng hMctx
  rw [hNT] at hTn hTng hTctx
  set N := (if n < 1 then 3 else n) with hN
  set E := adds.flatMap (extractNGrams N) with hE
  have hEvalid : ∀ g ∈ E, ∀ t ∈ g, validTok t := by
    intro g hg t ht
    rw [hE] at hg
    obtain ⟨str, hstr, hgstr⟩ := List.mem_flatMap.1 hg
    exact hadds str hstr t (extractNGrams_sub N str g hgstr t ht)
  have hCvalid : ∀ p ∈ ctxList E, p ≠ [] ∧ ∀ t ∈ p, validTok t := by
    intro p hp
    obtain ⟨ng, hng, hlng, hpd⟩ := ctxList_mem E p hp
    constructor
    · intro hnil
      have hlp : p.length = ng.length - 1 := by rw [hpd, List.length_dropLast]
      rw [hnil] at hlp
      simp only [List.length_nil] at hlp
      omega
    · intro t ht
      apply hEvalid ng hng t
      rw [hpd] at ht
      exact (List.dropLast_sublist ng).subset ht
  have hg0 : (context ++ [token]) ≠ [] := by simp
  have hg0valid : ∀ t ∈ context ++ [token], validTok t := by
    intro t ht
    rcases List.mem_append.1 ht with h1 | h1
    · exact hctx t h1
    · rcases List.mem_cons.1 h1 with h2 | h2
      · rw [h2]; exact htok
      · exact absurd h2 (List.not_mem_nil t)
  have hngc : mapGet (adds.foldl NGramModel.Add (NewNGramModel n s)).ngramCounts
      (ngramString (context ++ [token])) =
      (adds.foldl NGramModelTrie.Add (NewNGramModelTrie n s)).ngramTrie.GetCount
        (context ++ [token]) := by
    rw [hMng, hTng]
    have h1 : (NewNGramModel n s).ngramCounts = [] := rfl
    rw [h1, mapGet_foldl_incr]
    have h2 : mapGet [] (ngramString (context ++ [token])) = 0 := rfl
    rw [h2, zero_add]
    have h3 : (NewNGramModelTrie n s).ngramTrie = NewNGramTrie := rfl
    rw [h3, trie_fold_count E (context ++ [token]) hg0]
    have h4 := count_map_of_inj ngramString (context ++ [token]) E
      (fun x hx hxe => ngramString_inj x _ (hEvalid x hx) hg0valid hxe)
    rw [h4]
  have hctxc : mapGet (adds.foldl NGramModel.Add (NewNGramModel n s)).contextCounts
      (ngramString context) =
      (if 1 < (context ++ [token]).length then
        (adds.foldl NGramModelTrie.Add (NewNGramModelTrie n s)).contextTrie.GetCount
          (context ++ [token]).dropLast
      else 0) := by
    rw [hMctx, hTctx]
    have h1 : (NewNGramModel n s).contextCounts = [] := rfl
    rw [h1, mapGet_foldl_incr]
    have h2 : mapGet [] (ngramString context) = 0 := rfl
    rw [h2, zero_add]
    have h3 : (NewNGramModelTrie n s).contextTrie = NewNGramTrie := rfl
    rw [h3]
    cases context with
    | nil =>
        have hcond : ¬(1 < (([] : List String) ++ [token]).length) := by simp
        rw [if_neg hcond]
        have hz : ((ctxList E).map ngramString).count (ngramString []) = 0 := by
          rw [List.count_eq_zero]
          intro hmem
          obtain ⟨p, hp, hpe⟩ := List.mem_map.1 hmem
          obtain ⟨hpnil, hpvalid⟩ := hCvalid p hp
          cases p with
          | nil => exact hpnil rfl
          | cons a as =>
              exact ngramString_ne_empty a as (hpvalid a (by simp)) hpe
        rw [hz]
        rfl
    | cons c cs =>
        have hcond : 1 < ((c :: cs) ++ [token]).length := by simp
        rw [if_pos hcond]
        have hdl : ((c :: cs) ++ [token]).dropLast = c :: cs := by
          rw [List.dropLast_concat]
        rw [hdl, trie_fold_count (ctxList E) (c :: cs) (by simp)]
        have h4 := count_map_of_inj ngramString (c :: cs) (ctxList E)
          (fun x hx hxe => ngramString_inj x _ ((hCvalid x hx).2) hctx hxe)
        rw [h4]
  have hVk := vocab_fold_keys adds.flatten ((NewNGramModelTrie n s).vocabulary) [] rfl rfl
  have hV : (adds.foldl NGramModel.Add (NewNGramModel n s)).vocabulary.length =
      (adds.foldl NGramModelTrie.Add
        (NewNGramModelTrie n s)).vocabulary.VocabularySize := by
    rw [hMv, hTv]
    unfold NGramTrie.VocabularySize
    have h1 := congrArg List.length hVk.1
    rw [List.length_map, List.length_map] at h1
    exact h1.symm
  have hsm : (adds.foldl NGramModel.Add (NewNGramModel n s)).smoother =
      (adds.foldl NGramModelTrie.Add (NewNGramModelTrie n s)).smoother := by
    rw [hMs, hTs]
    rfl
  rw [mapProb_fit _ token context (by rw [hMn]; exact hfit),
    trieProb_fit _ token context (by rw [hTn]; exact hfit)]
  rw [hngc, hctxc, hV, hsm]

/-! ## Claim C10: cross-entropy agreement and the space-token divergence -/

theorem positionProbs_agree (n : ℕ) (s : Smoother) (adds : List (List String))
    (hadds : ∀ str ∈ adds, ∀ t ∈ str, validTok t)
    (S : List String) (hS : ∀ t ∈ S, validTok t) :
    positionProbs (adds.foldl NGramModel.Add (NewNGramModel n s)).Probability
        (adds.foldl NGramModel.Add (NewNGramModel n s)).n S =
      positionProbs
        (adds.foldl NGramModelTrie.Add (NewNGramModelTrie n s)).Probability
        (adds.foldl NGramModelTrie.Add (NewNGramModelTrie n s)).n S := by
  have hMn : (adds.foldl NGramModel.Add (NewNGramModel n s)).n =
      (if n < 1 then 3 else n) := (addMap_fold adds (NewNGramModel n s)).1.trans rfl
  have hTn : (adds.foldl NGramModelTrie.Add (NewNGramModelTrie n s)).n =
      (if n < 1 then 3 else n) := (addTrie_fold adds (NewNGramModelTrie n s)).1.trans rfl
  unfold positionProbs
  simp only [hMn, hTn]
  apply List.map_congr_left
  intro i hi
  rw [List.mem_range] at hi
  have htok : validTok (S.getD i "") := by
    apply hS
    rw [List.getD_eq_getElem S "" hi]
    exact List.getElem_mem hi
  have hctx2 : ∀ t ∈ (S.take i).drop (i + 1 - (if n < 1 then 3 else n)),
      validTok t := by
    intro t ht
    exact hS t (List.take_subset i S (List.drop_subset _ _ ht))
  have hfit : ((S.take i).drop (i + 1 - (if n < 1 then 3 else n))).length + 1 ≤
      (if n < 1 then 3 else n) := by
    have h1 : ((S.take i).drop (i + 1 - (if n < 1 then 3 else n))).length =
        (S.take i).length - (i + 1 - (if n < 1 then 3 else n)) := List.length_drop _ _
    have h2 : (S.take i).length = i := by
      rw [List.length_take]
      omega
    have h3 : 1 ≤ (if n < 1 then 3 else n) := by
      by_cases hn1 : n < 1
      · rw [if_pos hn1]
        omega
      · rw [if_neg hn1]
        omega
    rw [h1, h2]
    omega
  exact prob_agree n s adds hadds _ _ htok hctx2 hfit

/-- C10: the implicit refinement claim, amended.  For every `n`, the same
smoother, and every sequence of `Add` calls whose tokens are non-empty and
contain no space character, the map-based `NGramModel` and the bloom-less
trie-based `NGramModelTrie` return equal `CrossEntropy` and equal
`Perplexity` for every query token stream whose tokens are likewise
non-empty and space-free.  The amendment is the constraint on the query
stream: the claim as frozen quantifies over every query stream, but the
map-based model keys its counts by space-joined strings, so a query token
containing a space makes the two models disagree (see the
counterexample). -/
theorem C10_map_trie_equivalence (n : ℕ) (s : Smoother) (adds : List (List String))
    (S : List String)
    (hadds : ∀ str ∈ adds, ∀ t ∈ str, validTok t)
    (hS : ∀ t ∈ S, validTok t) :
    (adds.foldl NGramModel.Add (NewNGramModel n s)).CrossEntropy S =
      (adds.foldl NGramModelTrie.Add (NewNGramModelTrie n s)).CrossEntropy S ∧
    (adds.foldl NGramModel.Add (NewNGramModel n s)).Perplexity S =
      (adds.foldl NGramModelTrie.Add (NewNGramModelTrie n s)).Perplexity S := by
  have hce : (adds.foldl NGramModel.Add (NewNGramModel n s)).CrossEntropy S =
      (adds.foldl NGramModelTrie.Add (NewNGramModelTrie n s)).CrossEntropy S := by
    unfold NGramModel.CrossEntropy NGramModelTrie.CrossEntropy
    by_cases hSe : S = []
    · rw [if_pos hSe, if_pos hSe]
    · rw [if_neg hSe, if_neg hSe, positionProbs_agree n s adds hadds S hS]
  refine ⟨hce, ?_⟩
  unfold NGramModel.Perplexity NGramModelTrie.Perplexity
  rw [hce]

/-- Witness for C10 at a concrete corpus and query. -/
theorem C10_map_trie_equivalence_witness :
    (∀ str ∈ [["a", "b"]], ∀ t ∈ str, validTok t) ∧
    (∀ t ∈ (["a", "b"] : List String), validTok t) ∧
    ([["a", "b"]].foldl NGramModel.Add
        (NewNGramModel 2 (NewAddKSmoother 1))).CrossEntropy ["a", "b"] =
      ([["a", "b"]].foldl NGramModelTrie.Add
        (NewNGramModelTrie 2 (NewAddKSmoother 1))).CrossEntropy ["a", "b"] :=
  ⟨by decide, by decide,
    (C10_map_trie_equivalence 2 (NewAddKSmoother 1) [["a", "b"]] ["a", "b"]
      (by decide) (by decide)).1⟩

/-- Corpus for the C10 divergence: one `Add` of three valid tokens, map
model. -/
def c10map : NGramModel :=
  [["a", "b", "c"]].foldl NGramModel.Add (NewNGramModel 3 (NewAddKSmoother 1))

/-- The same corpus in the trie model. -/
def c10trie : NGramModelTrie :=
  [["a", "b", "c"]].foldl NGramModelTrie.Add
    (NewNGramModelTrie 3 (NewAddKSmoother 1))

theorem crossEntropyOfProbs_pair (p q : ℚ) (hp : 0 < p) (hq : 0 < q) :
    crossEntropyOfProbs [p, q] =
      -(Real.logb 2 (p : ℝ) + Real.logb 2 (q : ℝ)) / 2 := by
  unfold crossEntropyOfProbs
  have hf : List.filter (fun r => decide (0 < r)) [p, q] = [p, q] := by
    simp [List.filter, hp, hq]
  rw [hf]
  have hne : ([p, q] : List ℚ) ≠ [] := by simp
  rw [if_neg hne]
  simp

theorem c10map_prob0 : c10map.Probability "a b" [] = 1 / 3 := by
  have hfit : ([] : List String).length + 1 ≤ c10map.n := by decide
  rw [mapProb_fit c10map "a b" [] hfit]
  have hg : mapGet c10map.ngramCounts (ngramString ([] ++ ["a b"])) = 0 := by decide
  have hc : mapGet c10map.contextCounts (ngramString ([] : List String)) = 0 := by
    decide
  have hv : c10map.vocabulary.length = 3 := by decide
  have hsm : c10map.smoother = .addK 1 := by
    show NewAddKSmoother 1 = _
    norm_num [NewAddKSmoother]
  rw [hg, hc, hv, hsm]
  norm_num [Smoother.Smooth]

theorem c10map_prob1 : c10map.Probability "c" ["a b"] = 1 / 2 := by
  have hfit : (["a b"] : List String).length + 1 ≤ c10map.n := by decide
  rw [mapProb_fit c10map "c" ["a b"] hfit]
  have hg : mapGet c10map.ngramCounts (ngramString (["a b"] ++ ["c"])) = 1 := by
    decide
  have hc : mapGet c10map.contextCounts (ngramString ["a b"]) = 1 := by decide
  have hv : c10map.vocabulary.length = 3 := by decide
  have hsm : c10map.smoother = .addK 1 := by
    show NewAddKSmoother 1 = _
    norm_num [NewAddKSmoother]
  rw [hg, hc, hv, hsm]
  norm_num [Smoother.Smooth]

theorem c10trie_prob0 : c10trie.Probability "a b" [] = 1 / 3 := by
  have hfit : ([] : List String).length + 1 ≤ c10trie.n := by decide
  rw [trieProb_fit c10trie "a b" [] hfit]
  have hg : c10trie.ngramTrie.GetCount ([] ++ ["a b"]) = 0 := by decide
  have hcond : ¬(1 < (([] : List String) ++ ["a b"]).length) := by decide
  have hv : c10trie.vocabulary.VocabularySize = 3 := by decide
  have hsm : c10trie.smoother = .addK 1 := by
    show NewAddKSmoother 1 = _
    norm_num [NewAddKSmoother]
  rw [hg, if_neg hcond, hv, hsm]
  norm_num [Smoother.Smooth]

theorem c10trie_prob1 : c10trie.Probability "c" ["a b"] = 1 / 3 := by
  have hfit : (["a b"] : List String).length + 1 ≤ c10trie.n := by decide
  rw [trieProb_fit c10trie "c" ["a b"] hfit]
  have hg : c10trie.ngramTrie.GetCount (["a b"] ++ ["c"]) = 0 := by decide
  have hcond : 1 < ((["a b"] : List String) ++ ["c"]).length := by decide
  have hdl : c10trie.contextTrie.GetCount ((["a b"] : List String) ++ ["c"]).dropLast
      = 0 := by decide
  have hv : c10trie.vocabulary.VocabularySize = 3 := by decide
  have hsm : c10trie.smoother = .addK 1 := by
    show NewAddKSmoother 1 = _
    norm_num [NewAddKSmoother]
  rw [hg, if_pos hcond, hdl, hv, hsm]
  norm_num [Smoother.Smooth]

theorem c10map_probs :
    positionProbs c10map.Probability c10map.n ["a b", "c"] = [1 / 3, 1 / 2] := by
  unfold positionProbs
  have hr : List.range (["a b", "c"] : List String).length = [0, 1] := by decide
  rw [hr]
  simp only [List.map_cons, List.map_nil]
  have e0 : (["a b", "c"] : List String).getD 0 "" = "a b" := rfl
  have e1 : (["a b", "c"] : List String).getD 1 "" = "c" := rfl
  have e2 : (((["a b", "c"] : List String).take 0).drop (0 + 1 - c10map.n)) = [] := by
    decide
  have e3 : (((["a b", "c"] : List String).take 1).drop (1 + 1 - c10map.n)) =
      ["a b"] := by decide
  rw [e0, e1, e2, e3, c10map_prob0, c10map_prob1]

theorem c10trie_probs :
    positionProbs c10trie.Probability c10trie.n ["a b", "c"] = [1 / 3, 1 / 3] := by
  unfold positionProbs
  have hr : List.range (["a b", "c"] : List String).length = [0, 1] := by decide
  rw [hr]
  simp only [List.map_cons, List.map_nil]
  have e0 : (["a b", "c"] : List String).getD 0 "" = "a b" := rfl
  have e1 : (["a b", "c"] : List String).getD 1 "" = "c" := rfl
  have e2 : (((["a b", "c"] : List String).take 0).drop (0 + 1 - c10trie.n)) = [] := by
    decide
  have e3 : (((["a b", "c"] : List String).take 1).drop (1 + 1 - c10trie.n)) =
      ["a b"] := by decide
  rw [e0, e1, e2, e3, c10trie_prob0, c10trie_prob1]

/-- The claim of C10 as frozen is false: with a corpus of valid
(space-free) tokens, a query stream containing the token `"a b"` is scored
differently by the two models, because the map model's joined-string keys
conflate the query bigram `["a b", "c"]` with the corpus trigram
`["a", "b", "c"]` (and the context `["a b"]` with `["a", "b"]`), while the
trie model treats `"a b"` as one unknown token. -/
theorem C10_space_query_counterexample :
    (∀ str ∈ [["a", "b", "c"]], ∀ t ∈ str, validTok t) ∧
    c10map.CrossEntropy ["a b", "c"] ≠ c10trie.CrossEntropy ["a b", "c"] := by
  refine ⟨by decide, ?_⟩
  have hne : (["a b", "c"] : List String) ≠ [] := by decide
  have hCEm : c10map.CrossEntropy ["a b", "c"] =
      -(Real.logb 2 ((1 / 3 : ℚ) : ℝ) + Real.logb 2 ((1 / 2 : ℚ) : ℝ)) / 2 := by
    unfold NGramModel.CrossEntropy
    rw [if_neg hne, c10map_probs,
      crossEntropyOfProbs_pair _ _ (by norm_num) (by norm_num)]
  have hCEt : c10trie.CrossEntropy ["a b", "c"] =
      -(Real.logb 2 ((1 / 3 : ℚ) : ℝ) + Real.logb 2 ((1 / 3 : ℚ) : ℝ)) / 2 := by
    unfold NGramModelTrie.CrossEntropy
    rw [if_neg hne, c10trie_probs,
      crossEntropyOfProbs_pair _ _ (by norm_num) (by norm_num)]
  intro heq
  rw [hCEm, hCEt] at heq
  have hlt : Real.logb 2 ((1 / 3 : ℚ) : ℝ) < Real.logb 2 ((1 / 2 : ℚ) : ℝ) := by
    apply Real.logb_lt_logb (by norm_num)
    · push_cast
      norm_num
    · push_cast
      norm_num
  linarith

/-! ## Claim C9: `CorpusManager.RemoveFile` (corpus_manager.go)

The always-Trie+Bloom corpus manager of `internal/service`.  The mutex,
logger and tokenizer registry carry no model state and are dropped; the
`fileModels` Go map is an association list with unique-key lookup
semantics (first match) and key deletion removing every binding of the
key. -/

/-- Go `FileModel` (corpus_manager.go): the per-file model and its cached
entropy. -/
structure FileModelTB : Type where
  FilePath : String
  Language : String
  TokenCount : ℕ
  Model : NGramModelTrie
  Entropy : ℝ

/-- Go `CorpusManager` (corpus_manager.go). -/
structure CorpusManagerTB : Type where
  globalModel : NGramModelTrie
  fileModels : List (String × FileModelTB)
  n : ℕ
  smoother : Smoother

/-- Go `cm.fileModels[filePath]` with its `exists` flag folded into
`Option`. -/
def lookupFM (p : String) : List (String × FileModelTB) → Option FileModelTB
  | [] => none
  | (k, v) :: rest => if k = p then some v else lookupFM p rest

/-- Go `delete(cm.fileModels, filePath)`. -/
def removeKeyFM (p : String) : List (String × FileModelTB) → List (String × FileModelTB)
  | [] => []
  | (k, v) :: rest =>
      if k = p then removeKeyFM p rest else (k, v) :: removeKeyFM p rest

/-- Go `CorpusManager.RemoveFile`: error if the path is absent, otherwise
delete only the map entry — the global model is not touched (the comment
in the code defers the subtraction). The `Option String` is the returned
error. -/
def CorpusManagerTB.RemoveFile (cm : CorpusManagerTB) (filePath : String) :
    CorpusManagerTB × Option String :=
  match lookupFM filePath cm.fileModels with
  | none => (cm, some ("file not found in corpus: " ++ filePath))
  | some _ => ({ cm with fileModels := removeKeyFM filePath cm.fileModels }, none)

/-- Go `CorpusManager.GetFileEntropy`: the cached per-file entropy, or an
error when the path is absent (the Go version returns `0` with the
error). -/
def CorpusManagerTB.GetFileEntropy (cm : CorpusManagerTB) (filePath : String) :
    ℝ × Option String :=
  match lookupFM filePath cm.fileModels with
  | none => (0, some ("file not found in corpus: " ++ filePath))
  | some fm => (fm.Entropy, none)

theorem lookupFM_removeKey_self (p : String) :
    ∀ l : List (String × FileModelTB), lookupFM p (removeKeyFM p l) = none := by
  intro l
  induction l with
  | nil => rfl
  | cons kv rest ih =>
      obtain ⟨k, v⟩ := kv
      show lookupFM p (if k = p then removeKeyFM p rest else (k, v) :: removeKeyFM p rest)
        = none
      by_cases h : k = p
      · rw [if_pos h]
        exact ih
      · rw [if_neg h]
        show (if k = p then some v else lookupFM p (removeKeyFM p rest)) = none
        rw [if_neg h]
        exact ih

theorem lookupFM_removeKey_other (p q : String) (hqp : q ≠ p) :
    ∀ l : List (String × FileModelTB),
      lookupFM q (removeKeyFM p l) = lookupFM q l := by
  intro l
  induction l with
  | nil => rfl
  | cons kv rest ih =>
      obtain ⟨k, v⟩ := kv
      show lookupFM q (if k = p then removeKeyFM p rest else (k, v) :: removeKeyFM p rest)
        = (if k = q then some v else lookupFM q rest)
      by_cases h : k = p
      · rw [if_pos h]
        have hkq : ¬k = q := by
          rw [h]
          exact fun he => hqp he.symm
        rw [ih, if_neg hkq]
      · rw [if_neg h]
        show (if k = q then some v else lookupFM q (removeKeyFM p rest)) = _
        by_cases hq : k = q
        · rw [if_pos hq, if_pos hq]
        · rw [if_neg hq, if_neg hq]
          exact ih

/-- C9: `RemoveFile(p)` on a corpus containing `p` succeeds and deletes
exactly `p`'s entry: the global model, the n-gram order, the smoother,
every other file's entry, and every other cached entropy are unchanged.
On a corpus not containing `p` it returns a file-not-found error and the
whole state is unchanged. -/
theorem C9_remove_file_frame (cm : CorpusManagerTB) (p : String) :
    (lookupFM p cm.fileModels ≠ none →
      (cm.RemoveFile p).2 = none ∧
      (cm.RemoveFile p).1.globalModel = cm.globalModel ∧
      (cm.RemoveFile p).1.n = cm.n ∧
      (cm.RemoveFile p).1.smoother = cm.smoother ∧
      lookupFM p (cm.RemoveFile p).1.fileModels = none ∧
      (∀ q : String, q ≠ p →
        lookupFM q (cm.RemoveFile p).1.fileModels = lookupFM q cm.fileModels) ∧
      (∀ q : String, q ≠ p →
        (cm.RemoveFile p).1.GetFileEntropy q = cm.GetFileEntropy q)) ∧
    (lookupFM p cm.fileModels = none →
      (∃ e : String, (cm.RemoveFile p).2 = some e) ∧ (cm.RemoveFile p).1 = cm) := by
  constructor
  · intro hpresent
    cases hl : lookupFM p cm.fileModels with
    | none => exact absurd hl hpresent
    | some fm =>
        have hrf : cm.RemoveFile p =
            ({ cm with fileModels := removeKeyFM p cm.fileModels }, none) := by
          unfold CorpusManagerTB.RemoveFile
          rw [hl]
        rw [hrf]
        refine ⟨rfl, rfl, rfl, rfl, lookupFM_removeKey_self p cm.fileModels, ?_, ?_⟩
        · intro q hq
          exact lookupFM_removeKey_other p q hq cm.fileModels
        · intro q hq
          show CorpusManagerTB.GetFileEntropy _ q = CorpusManagerTB.GetFileEntropy cm q
          unfold CorpusManagerTB.GetFileEntropy
          rw [show ({ cm with fileModels := removeKeyFM p cm.fileModels } :
              CorpusManagerTB).fileModels = removeKeyFM p cm.fileModels from rfl,
            lookupFM_removeKey_other p q hq cm.fileModels]
  · intro habsent
    have hrf : cm.RemoveFile p = (cm, some ("file not found in corpus: " ++ p)) := by
      unfold CorpusManagerTB.RemoveFile
      rw [habsent]
    rw [hrf]
    exact ⟨⟨_, rfl⟩, rfl⟩

/-- A concrete two-file corpus for the C9 witness. -/
def c9cm : CorpusManagerTB :=
  { globalModel := NewNGramModelTrie 2 (NewAddKSmoother 1)
    fileModels :=
      [("a.go", { FilePath := "a.go", Language := "go", TokenCount := 2
                  Model := NewNGramModelTrie 2 (NewAddKSmoother 1), Entropy := 0 }),
       ("b.go", { FilePath := "b.go", Language := "go", TokenCount := 3
                  Model := NewNGramModelTrie 2 (NewAddKSmoother 1), Entropy := 0 })]
    n := 2
    smoother := NewAddKSmoother 1 }

/-- Witness for C9: removing `"a.go"` from the concrete corpus succeeds,
erases it, and leaves the global model and `"b.go"`'s entry untouched;
removing a missing path errors and changes nothing. -/
theorem C9_remove_file_frame_witness :
    ((c9cm.RemoveFile "a.go").2 = none ∧
      (c9cm.RemoveFile "a.go").1.globalModel = c9cm.globalModel ∧
      lookupFM "a.go" (c9cm.RemoveFile "a.go").1.fileModels = none ∧
      lookupFM "b.go" (c9cm.RemoveFile "a.go").1.fileModels =
        lookupFM "b.go" c9cm.fileModels) ∧
    ((∃ e : String, (c9cm.RemoveFile "zzz.go").2 = some e) ∧
      (c9cm.RemoveFile "zzz.go").1 = c9cm) := by
  constructor
  · have h := (C9_remove_file_frame c9cm "a.go").1
      (by intro hnone; exact Option.noConfusion hnone)
    exact ⟨h.1, h.2.1, h.2.2.2.2.1, h.2.2.2.2.2.1 "b.go" (by decide)⟩
  · exact (C9_remove_file_frame c9cm "zzz.go").2 rfl

/-! ## Claims C1 and C7: the persistence layer

Embeds the options-based `CorpusManager` of package `service` (the file
with `useTrie`/`useBloom` and both global models, which is the manager
`ngram_persistence.go` reads and writes) and the persistence codec
itself.  The gob encoder/decoder and the filesystem are dropped: saving
produces the `SerializableNGramModel` value that would be encoded, and
loading consumes such a value; a decoded stream is exactly a value of
this type.  `time.Time` fields, the tokenizer registry, loggers and
mutexes carry no model state and are dropped. -/

/-- Go `FileModel` (options corpus manager): per-file models and the
cached entropy. -/
structure FileModelP : Type where
  FilePath : String
  Language : String
  TokenCount : ℕ
  Model : Option NGramModel
  TrieModel : Option NGramModelTrie
  Entropy : ℝ

/-- Go `CorpusManager` (options version): one of the two global models is
populated according to `useTrie`. -/
structure CorpusManagerP : Type where
  globalModel : Option NGramModel
  globalTrieModel : Option NGramModelTrie
  fileModels : List (String × FileModelP)
  n : ℕ
  smoother : Smoother
  useTrie : Bool
  useBloom : Bool

/-- Go `NewCorpusManagerWithOptions` (n clamped to 3 when below 1; the
`nil`-smoother and `nil`-tokenizer defaults are dead at the embedded call
sites since `Smoother` is a closed sum here). -/
def NewCorpusManagerWithOptions (n : ℕ) (smoother : Smoother)
    (useTrie useBloom : Bool) : CorpusManagerP :=
  let n2 := if n < 1 then 3 else n
  { globalModel := if useTrie = true then none else some (NewNGramModel n2 smoother)
    globalTrieModel :=
      if useTrie = true then
        some (if useBloom = true then NewNGramModelTrieWithBloom n2 smoother true
              else NewNGramModelTrie n2 smoother)
      else none
    fileModels := []
    n := n2
    smoother := smoother
    useTrie := useTrie
    useBloom := useBloom }

/-- Go `FileMetadata`. -/
structure FileMetadataP : Type where
  Path : String
  Language : String
  TokenCount : ℕ
  Entropy : ℝ

/-- Go `SerializableTrieNode`.  `ParentID` is `-1` for the root. -/
structure SerializableTrieNodeP : Type where
  ID : ℕ
  TokenID : ℕ
  Count : ℤ
  ChildrenIDs : List (ℕ × ℕ)
  ParentID : ℤ

/-- Go `SerializableNGramModel` (`CreatedAt` dropped with `time.Time`). -/
structure SerializableNGramModel : Type where
  Version : String
  N : ℕ
  UseTrie : Bool
  UseBloom : Bool
  TotalTokens : ℤ
  RepoName : String
  SmootherName : String
  FileMetadata : List (String × FileMetadataP)
  TokenToID : List (String × ℕ)
  IDToToken : List String
  TrieNodes : List SerializableTrieNodeP
  VocabNodes : List SerializableTrieNodeP
  ContextNodes : List SerializableTrieNodeP
  NGramTrieTotalNGrams : ℤ
  NGramTrieTotalTokens : ℤ
  ContextTrieTotalNGrams : ℤ
  ContextTrieTotalTokens : ℤ
  Vocabulary : List (String × ℤ)
  NGramCounts : List (String × ℤ)
  ContextCounts : List (String × ℤ)

mutual

/-- Go `flattenTrie`'s inner `flatten` closure: assign this node the next
id, flatten the children in order (each child's id is the running
counter at the moment its map entry is written, which is exactly the id
the recursive call assigns it), and append the node's own record after
its children, as the Go code does. -/
def flattenNode : TrieNode → ℤ → ℕ → List SerializableTrieNodeP × ℕ
  | .mk tid cnt ch, parentID, nextID =>
      let r := flattenChildren ch nextID (nextID + 1)
      (r.2.1 ++ [{ ID := nextID, TokenID := tid, Count := cnt,
                   ChildrenIDs := r.1, ParentID := parentID }], r.2.2)

/-- The child loop of `flattenTrie`: returns the `ChildrenIDs` entries,
the flattened subtree records, and the advanced id counter. -/
def flattenChildren : List (ℕ × TrieNode) → ℕ → ℕ →
    List (ℕ × ℕ) × (List SerializableTrieNodeP × ℕ)
  | [], _, nextID => ([], ([], nextID))
  | (tid, child) :: rest, nodeID, nextID =>
      let rc := flattenNode child (nodeID : ℤ) nextID
      let rr := flattenChildren rest nodeID rc.2
      ((tid, nextID) :: rr.1, (rc.1 ++ rr.2.1, rr.2.2))

end

/-- Go `flattenTrie` (the root is never nil here). -/
def flattenTrie (root : TrieNode) : List SerializableTrieNodeP :=
  (flattenNode root (-1) 0).1

/-- The node-building pass of Go `reconstructTrie`, read functionally:
node `id` gets the stored token id and count, and one child per
`ChildrenIDs` entry whose target id exists (the Go code wires pointers;
on the acyclic id graphs `flattenTrie` produces, depth is bounded by the
node count, which the fuel mirrors). -/
def buildNode (nodes : List SerializableTrieNodeP) : ℕ → ℕ → TrieNode
  | 0, _ => NewTrieNode 0
  | fuel + 1, id =>
      match nodes.find? (fun s => s.ID = id) with
      | none => NewTrieNode 0
      | some s =>
          .mk s.TokenID s.Count
            (s.ChildrenIDs.filterMap (fun p =>
              if (nodes.find? (fun s2 => s2.ID = p.2)).isSome then
                some (p.1, buildNode nodes fuel p.2)
              else none))

/-- Go `reconstructTrie`: empty input yields a fresh node, otherwise the
tree hanging off id 0. -/
def reconstructTrie (nodes : List SerializableTrieNodeP) : TrieNode :=
  if nodes.isEmpty = true then NewTrieNode 0
  else buildNode nodes nodes.length 0

/-- Go `serializeTrieModel`: only the VOCABULARY trie's interning table is
written; the n-gram and context tries' own tables are not serialized. -/
def serializeTrieModel (tm : NGramModelTrie) (target : SerializableNGramModel) :
    SerializableNGramModel :=
  { target with
      TotalTokens := tm.totalTokens
      SmootherName := tm.smoother.Name
      TokenToID := tm.vocabulary.tokenToID
      IDToToken := tm.vocabulary.idToToken
      NGramTrieTotalNGrams := tm.ngramTrie.totalNGrams
      NGramTrieTotalTokens := tm.ngramTrie.totalTokens
      ContextTrieTotalNGrams := tm.contextTrie.totalNGrams
      ContextTrieTotalTokens := tm.contextTrie.totalTokens
      TrieNodes := flattenTrie tm.ngramTrie.root
      VocabNodes := flattenTrie tm.vocabulary.root
      ContextNodes := flattenTrie tm.contextTrie.root }

/-- Go `serializeMapModel`. -/
def serializeMapModel (m : NGramModel) (target : SerializableNGramModel) :
    SerializableNGramModel :=
  { target with
      TotalTokens := m.totalTokens
      SmootherName := m.smoother.Name
      Vocabulary := m.vocabulary
      NGramCounts := m.ngramCounts
      ContextCounts := m.contextCounts }

/-- The header `SaveCorpusManager` fills in before dispatching on the
model kind: version, options, repo name and the file metadata map. -/
def saveBase (cm : CorpusManagerP) (repoName : String) : SerializableNGramModel :=
  { Version := "1.0"
    N := cm.n
    UseTrie := cm.useTrie
    UseBloom := cm.useBloom
    TotalTokens := 0
    RepoName := repoName
    SmootherName := ""
    FileMetadata := cm.fileModels.map (fun p =>
      (p.1, { Path := p.1, Language := p.2.Language,
              TokenCount := p.2.TokenCount, Entropy := p.2.Entropy }))
    TokenToID := []
    IDToToken := []
    TrieNodes := []
    VocabNodes := []
    ContextNodes := []
    NGramTrieTotalNGrams := 0
    NGramTrieTotalTokens := 0
    ContextTrieTotalNGrams := 0
    ContextTrieTotalTokens := 0
    Vocabulary := []
    NGramCounts := []
    ContextCounts := [] }

/-- Go `SaveCorpusManager`, up to the gob encoding: build the
serializable value. -/
def SaveCorpusManager (cm : CorpusManagerP) (repoName : String) :
    Except String SerializableNGramModel :=
  match cm.useTrie, cm.globalTrieModel with
  | true, some tm => .ok (serializeTrieModel tm (saveBase cm repoName))
  | _, _ =>
      match cm.globalModel with
      | some gm => .ok (serializeMapModel gm (saveBase cm repoName))
      | none => .error "no global model found"

/-- The file-metadata restoration loop of `LoadCorpusManager`: only the
metadata survives; the per-file models are not serialized. -/
def loadFileModels (model : SerializableNGramModel) : List (String × FileModelP) :=
  model.FileMetadata.map (fun p : String × FileMetadataP =>
    (p.1, { FilePath := p.2.Path, Language := p.2.Language,
            TokenCount := p.2.TokenCount, Entropy := p.2.Entropy,
            Model := none, TrieModel := none }))

/-- Go `deserializeTrieModel` applied to the freshly constructed global
trie model: restore the VOCABULARY trie's interning table and
`nextID`, the three roots, the trie counters, and `totalTokens`.  The
n-gram and context tries' interning tables are left as the constructor
made them (empty). -/
def loadTrieModel (model : SerializableNGramModel) (tm : NGramModelTrie) :
    NGramModelTrie :=
  { tm with
      vocabulary := { tm.vocabulary with
        tokenToID := model.TokenToID
        idToToken := model.IDToToken
        nextID := model.IDToToken.length
        root := reconstructTrie model.VocabNodes }
      ngramTrie := { tm.ngramTrie with
        root := reconstructTrie model.TrieNodes
        totalNGrams := model.NGramTrieTotalNGrams
        totalTokens := model.NGramTrieTotalTokens }
      contextTrie := { tm.contextTrie with
        root := reconstructTrie model.ContextNodes
        totalNGrams := model.ContextTrieTotalNGrams
        totalTokens := model.ContextTrieTotalTokens }
      totalTokens := model.TotalTokens }

/-- Go `deserializeMapModel` applied to the freshly constructed global
map model. -/
def loadMapModel (model : SerializableNGramModel) (smoother : Smoother) :
    NGramModel :=
  { NewNGramModel model.N smoother with
      totalTokens := model.TotalTokens
      vocabulary := model.Vocabulary
      ngramCounts := model.NGramCounts
      contextCounts := model.ContextCounts }

/-- Go `LoadCorpusManager`, from a decoded stream: the smoother is
recovered from its NAME only (`AddK` parameters are lost, `k` reverts
to 1); the `Version` field is never read. -/
def LoadCorpusManager (model : SerializableNGramModel) :
    Except String CorpusManagerP :=
  let smoother := if model.SmootherName = "WittenBell" then NewWittenBellSmoother
    else NewAddKSmoother 1
  let cm0 := NewCorpusManagerWithOptions model.N smoother model.UseTrie model.UseBloom
  let cm1 := { cm0 with fileModels := loadFileModels model }
  if model.UseTrie = true then
    match cm1.globalTrieModel with
    | none => .error "corpus manager has no trie model"
    | some tm => .ok { cm1 with globalTrieModel := some (loadTrieModel model tm) }
  else
    .ok { cm1 with globalModel := some (loadMapModel model smoother) }

/-- A trie model whose n-gram and context tries have empty interning
tables (the state every loaded trie model is in) gives every query the
smoothed zero-count probability. -/
theorem Probability_empty_tables (M : NGramModelTrie)
    (hng : M.ngramTrie.tokenToID = []) (hctx : M.contextTrie.tokenToID = []) :
    ∀ (token : String) (context : List String),
      M.Probability token context =
        Smoother.Smooth M.smoother 0 0
          (if M.vocabulary.VocabularySize = 0 then 0
           else 1 / (M.vocabulary.VocabularySize : ℚ))
          M.vocabulary.VocabularySize := by
  intro token context
  have hgc : ∀ g : List String, M.ngramTrie.GetCount g = 0 := by
    intro g
    by_cases hgnil : g = []
    · simp [NGramTrie.GetCount, hgnil]
    · exact GetCount_none _ g hgnil (tokenIDs?_empty_table _ hng g hgnil)
  have hcc : ∀ g : List String, M.contextTrie.GetCount g = 0 := by
    intro g
    by_cases hgnil : g = []
    · simp [NGramTrie.GetCount, hgnil]
    · exact GetCount_none _ g hgnil (tokenIDs?_empty_table _ hctx g hgnil)
  unfold NGramModelTrie.Probability
  simp only [hgc, hcc, ite_self]

/-- A serialized map-based model with a mismatched version string, used
to show that loading ignores the version. -/
def c7ser : SerializableNGramModel :=
  { Version := "1.0"
    N := 3
    UseTrie := false
    UseBloom := false
    TotalTokens := 0
    RepoName := "repo"
    SmootherName := "AddK"
    FileMetadata := []
    TokenToID := []
    IDToToken := []
    TrieNodes := []
    VocabNodes := []
    ContextNodes := []
    NGramTrieTotalNGrams := 0
    NGramTrieTotalTokens := 0
    ContextTrieTotalNGrams := 0
    ContextTrieTotalTokens := 0
    Vocabulary := []
    NGramCounts := []
    ContextCounts := [] }

/-- C7: corrected.  `LoadCorpusManager` never consults the serialized
`Version` field: the loaded result is invariant under arbitrary changes
of the version string, and a stream whose version differs from the
written `"1.0"` loads successfully instead of failing with a
format-version error, contradicting the claim. -/
theorem C7_version_never_consulted :
    (∀ (m : SerializableNGramModel) (v1 v2 : String),
      LoadCorpusManager { m with Version := v1 } =
        LoadCorpusManager { m with Version := v2 }) ∧
    ({ c7ser with Version := "9999" } : SerializableNGramModel).Version ≠ "1.0" ∧
    (∃ cm : CorpusManagerP,
      LoadCorpusManager { c7ser with Version := "9999" } = .ok cm) := by
  refine ⟨?_, by decide, ⟨_, rfl⟩⟩
  intro m v1 v2
  rfl

/-- C1: corrected.  Saving a trie-based corpus and reloading the stream
preserves the stats observables — the global model's `Stats` (n-gram
order, vocabulary size, n-gram count, total tokens, smoother name) and
every file's language, token count and cached entropy — but NOT the
global model's probabilities: `serializeTrieModel` writes only the
vocabulary trie's interning table, so the loaded n-gram and context
tries cannot translate any token, and every probability query on the
loaded model collapses to the smoothed zero-count value (`1/V` for both
smoothers), contradicting the claim's required agreement of
`Probability`/`CrossEntropy` on probe sets. -/
theorem C1_save_load_trie (cm : CorpusManagerP) (repoName : String)
    (tm : NGramModelTrie)
    (htrie : cm.useTrie = true) (hg : cm.globalTrieModel = some tm)
    (hn : tm.n = cm.n) (hn1 : 1 ≤ cm.n) :
    ∃ (ser : SerializableNGramModel) (cm2 : CorpusManagerP)
      (tm2 : NGramModelTrie),
      SaveCorpusManager cm repoName = .ok ser ∧
      LoadCorpusManager ser = .ok cm2 ∧
      cm2.globalTrieModel = some tm2 ∧
      tm2.Stats = tm.Stats ∧
      cm2.fileModels.map
          (fun p => (p.1, p.2.Language, p.2.TokenCount, p.2.Entropy)) =
        cm.fileModels.map
          (fun p => (p.1, p.2.Language, p.2.TokenCount, p.2.Entropy)) ∧
      ∀ (token : String) (context : List String),
        tm2.Probability token context =
          Smoother.Smooth tm2.smoother 0 0
            (if tm2.vocabulary.VocabularySize = 0 then 0
             else 1 / (tm2.vocabulary.VocabularySize : ℚ))
            tm2.vocabulary.VocabularySize := by
  obtain ⟨gm, gtm, fms, ncm, sm, ut, ub⟩ := cm
  have htrie2 : ut = true := htrie
  subst htrie2
  have hg2 : gtm = some tm := hg
  subst hg2
  have hn2 : tm.n = ncm := hn
  have hn12 : 1 ≤ ncm := hn1
  have hcl : (if ncm < 1 then 3 else ncm) = ncm := if_neg (by omega)
  cases ub with
  | false =>
      refine ⟨_, _, _, rfl, rfl, rfl, ?_, ?_, ?_⟩
      · unfold NGramModelTrie.Stats
        simp only [ModelStats.mk.injEq]
        refine ⟨?_, rfl, rfl, rfl, ?_⟩
        · show (if (if ncm < 1 then 3 else ncm) < 1 then 3
              else (if ncm < 1 then 3 else ncm)) = tm.n
          rw [hcl, hcl, hn2]
        · show (if tm.smoother.Name = "WittenBell" then NewWittenBellSmoother
              else NewAddKSmoother 1).Name = tm.smoother.Name
          cases tm.smoother with
          | addK k =>
              rw [show (Smoother.addK k).Name = "AddK" from rfl,
                if_neg (by decide)]
              rfl
          | wittenBell =>
              rw [show Smoother.wittenBell.Name = "WittenBell" from rfl,
                if_pos rfl]
              rfl
      · simp only [loadFileModels, serializeTrieModel, saveBase, List.map_map]
        rfl
      · exact Probability_empty_tables _ rfl rfl
  | true =>
      refine ⟨_, _, _, rfl, rfl, rfl, ?_, ?_, ?_⟩
      · unfold NGramModelTrie.Stats
        simp only [ModelStats.mk.injEq]
        refine ⟨?_, rfl, rfl, rfl, ?_⟩
        · show (if (if ncm < 1 then 3 else ncm) < 1 then 3
              else (if ncm < 1 then 3 else ncm)) = tm.n
          rw [hcl, hcl, hn2]
        · show (if tm.smoother.Name = "WittenBell" then NewWittenBellSmoother
              else NewAddKSmoother 1).Name = tm.smoother.Name
          cases tm.smoother with
          | addK k =>
              rw [show (Smoother.addK k).Name = "AddK" from rfl,
                if_neg (by decide)]
              rfl
          | wittenBell =>
              rw [show Smoother.wittenBell.Name = "WittenBell" from rfl,
                if_pos rfl]
              rfl
      · simp only [loadFileModels, serializeTrieModel, saveBase, List.map_map]
        rfl
      · exact Probability_empty_tables _ rfl rfl

/-- Concrete trie model for the C1 witness and counterexample: one Add of
`a b c` under Laplace smoothing. -/
def c1trie : NGramModelTrie :=
  (NewNGramModelTrie 3 (NewAddKSmoother 1)).Add ["a", "b", "c"]

/-- The trie-based corpus holding `c1trie` as its global model. -/
def c1cm : CorpusManagerP :=
  { globalModel := none
    globalTrieModel := some c1trie
    fileModels := []
    n := 3
    smoother := NewAddKSmoother 1
    useTrie := true
    useBloom := false }

/-- Witness for C1 at the concrete corpus. -/
theorem C1_save_load_trie_witness :
    (c1cm.useTrie = true ∧ c1cm.globalTrieModel = some c1trie ∧
      c1trie.n = c1cm.n ∧ 1 ≤ c1cm.n) ∧
    (∃ (ser : SerializableNGramModel) (cm2 : CorpusManagerP)
      (tm2 : NGramModelTrie),
      SaveCorpusManager c1cm "repo" = .ok ser ∧
      LoadCorpusManager ser = .ok cm2 ∧
      cm2.globalTrieModel = some tm2 ∧
      tm2.Stats = c1trie.Stats ∧
      cm2.fileModels.map
          (fun p => (p.1, p.2.Language, p.2.TokenCount, p.2.Entropy)) =
        c1cm.fileModels.map
          (fun p => (p.1, p.2.Language, p.2.TokenCount, p.2.Entropy)) ∧
      ∀ (token : String) (context : List String),
        tm2.Probability token context =
          Smoother.Smooth tm2.smoother 0 0
            (if tm2.vocabulary.VocabularySize = 0 then 0
             else 1 / (tm2.vocabulary.VocabularySize : ℚ))
            tm2.vocabulary.VocabularySize) :=
  ⟨⟨rfl, rfl, by decide, by decide⟩,
    C1_save_load_trie c1cm "repo" c1trie rfl rfl (by decide) (by decide)⟩

/-- The serialized form of `c1cm` (total function image of the save). -/
def c1ser : SerializableNGramModel :=
  match SaveCorpusManager c1cm "repo" with
  | .ok s => s
  | .error _ => c7ser

/-- The global trie model of the corpus loaded back from `c1ser`. -/
def c1loadedTM : NGramModelTrie :=
  match LoadCorpusManager c1ser with
  | .ok cm2 =>
      match cm2.globalTrieModel with
      | some tm2 => tm2
      | none => NewNGramModelTrie 3 (NewAddKSmoother 1)
  | .error _ => NewNGramModelTrie 3 (NewAddKSmoother 1)

/-- The C1 claim as frozen is false on a concrete probe: the original
corpus gives the trigram continuation `c` after `a b` probability `1/2`,
while the saved-and-reloaded corpus gives `1/3` (= `1/V`), because the
n-gram and context tries' interning tables were not serialized. -/
theorem C1_probe_counterexample :
    SaveCorpusManager c1cm "repo" = .ok c1ser ∧
    (∃ cm2 : CorpusManagerP,
      LoadCorpusManager c1ser = .ok cm2 ∧ cm2.globalTrieModel = some c1loadedTM) ∧
    c1trie.Probability "c" ["a", "b"] = 1 / 2 ∧
    c1loadedTM.Probability "c" ["a", "b"] = 1 / 3 ∧
    (1 / 2 : ℚ) ≠ 1 / 3 := by
  refine ⟨rfl, ⟨_, rfl, rfl⟩, ?_, ?_, by norm_num⟩
  · have hfit : (["a", "b"] : List String).length + 1 ≤ c1trie.n := by decide
    rw [trieProb_fit c1trie "c" ["a", "b"] hfit]
    have hg : c1trie.ngramTrie.GetCount (["a", "b"] ++ ["c"]) = 1 := by decide
    have hcond : 1 < ((["a", "b"] : List String) ++ ["c"]).length := by decide
    have hdl : c1trie.contextTrie.GetCount
        ((["a", "b"] : List String) ++ ["c"]).dropLast = 1 := by decide
    have hv : c1trie.vocabulary.VocabularySize = 3 := by decide
    have hsm : c1trie.smoother = .addK 1 := by
      show NewAddKSmoother 1 = _
      norm_num [NewAddKSmoother]
    rw [hg, if_pos hcond, hdl, hv, hsm]
    norm_num [Smoother.Smooth]
  · have hfit : (["a", "b"] : List String).length + 1 ≤ c1loadedTM.n := by decide
    rw [trieProb_fit c1loadedTM "c" ["a", "b"] hfit]
    have hg : c1loadedTM.ngramTrie.GetCount (["a", "b"] ++ ["c"]) = 0 := by decide
    have hcond : 1 < ((["a", "b"] : List String) ++ ["c"]).length := by decide
    have hdl : c1loadedTM.contextTrie.GetCount
        ((["a", "b"] : List String) ++ ["c"]).dropLast = 0 := by decide
    have hv : c1loadedTM.vocabulary.VocabularySize = 3 := by decide
    have hsm : c1loadedTM.smoother = .addK 1 := by
      show NewAddKSmoother 1 = _
      norm_num [NewAddKSmoother]
    rw [hg, if_pos hcond, hdl, hv, hsm]
    norm_num [Smoother.Smooth]

/-- A concrete stream whose version differs from the written `"1.0"`
loads successfully — no format-version error exists anywhere in the
load path. -/
theorem C7_wrong_version_counterexample :
    ({ c7ser with Version := "9999" } : SerializableNGramModel).Version ≠ "1.0" ∧
    (∃ cm : CorpusManagerP,
      LoadCorpusManager { c7ser with Version := "9999" } = .ok cm) :=
  ⟨by decide, ⟨_, rfl⟩⟩
